import Mathlib

/-!
# Verification of the tuple-database client and transaction layer

This file embeds the client/transaction layer of the tuple-database
repository (`src/database/sync/TupleDatabaseClient.ts`,
`src/database/async/AsyncTupleDatabaseClient.ts`, and the retry wrapper
`transactionalQuery`/`retry`) as executable Lean definitions, together with
the helper modules they call (tuple comparator, sorted-array primitives,
subspace helpers, storage/engine contract).  The helper modules are not part
of the provided sources, so they are modelled from the specification
(§4.C1–§4.C7); each such definition carries a doc comment saying so.
Numbers inside tuple values are modelled as `Int` (the source uses JS
doubles; every claim under study only uses integral numbers), and the
`reverse` scan option is omitted (the specification marks it as ignored by
the relevant source paths, §9).
-/

set_option maxHeartbeats 1000000

namespace TupleDb

/-! ## Base comparators -/

/-- Modelled from the spec: three-way comparison on `Nat`, used for type
ranks and character code points. -/
def compareNatO (a b : Nat) : Ordering :=
  if a < b then .lt else if b < a then .gt else .eq

/-- Modelled from the spec: numbers compare numerically (§4.C1); JS doubles
are modelled as `Int`. -/
def compareInt (a b : Int) : Ordering :=
  if a < b then .lt else if b < a then .gt else .eq

/-- Modelled from the spec: characters compare by Unicode code point
(§4.C1). -/
def compareChar (a b : Char) : Ordering :=
  compareNatO a.toNat b.toNat

/-- Modelled from the spec: strings compare by Unicode code point,
lexicographically over the character list (§4.C1). -/
def compareCharList : List Char → List Char → Ordering
  | [], [] => .eq
  | [], _ :: _ => .lt
  | _ :: _, [] => .gt
  | a :: as, b :: bs => (compareChar a b).then (compareCharList as bs)

/-- Modelled from the spec: string comparison by code point (§4.C1). -/
def compareStr (a b : String) : Ordering :=
  compareCharList a.data b.data

/-- Modelled from the spec: booleans compare with `false < true` (§4.C1). -/
def compareBool : Bool → Bool → Ordering
  | false, true => .lt
  | true, false => .gt
  | _, _ => .eq

theorem compareNatO_refl (a : Nat) : compareNatO a a = .eq := by
  simp [compareNatO]

theorem compareNatO_eq_iff {a b : Nat} : compareNatO a b = .eq ↔ a = b := by
  unfold compareNatO
  split <;> rename_i h
  · simp; omega
  · split <;> rename_i h2
    · simp; omega
    · simp; omega

theorem compareNatO_lt_iff {a b : Nat} : compareNatO a b = .lt ↔ a < b := by
  unfold compareNatO
  split <;> rename_i h
  · simp; omega
  · split <;> simp <;> omega

theorem compareNatO_swap (a b : Nat) : compareNatO a b = (compareNatO b a).swap := by
  unfold compareNatO
  by_cases h1 : a < b <;> by_cases h2 : b < a
  · exact absurd h2 (lt_asymm h1)
  all_goals simp [h1, h2, Ordering.swap]

theorem compareNatO_trans {a b c : Nat} (h1 : compareNatO a b = .lt)
    (h2 : compareNatO b c = .lt) : compareNatO a c = .lt := by
  rw [compareNatO_lt_iff] at *
  omega

theorem compareInt_refl (a : Int) : compareInt a a = .eq := by
  simp [compareInt]

theorem compareInt_eq_iff {a b : Int} : compareInt a b = .eq ↔ a = b := by
  unfold compareInt
  split <;> rename_i h
  · simp; omega
  · split <;> rename_i h2
    · simp; omega
    · simp; omega

theorem compareInt_lt_iff {a b : Int} : compareInt a b = .lt ↔ a < b := by
  unfold compareInt
  split <;> rename_i h
  · simp [h]
  · split <;> simp <;> omega

theorem compareInt_swap (a b : Int) : compareInt a b = (compareInt b a).swap := by
  unfold compareInt
  by_cases h1 : a < b <;> by_cases h2 : b < a
  · exact absurd h2 (lt_asymm h1)
  all_goals simp [h1, h2, Ordering.swap]

theorem compareInt_trans {a b c : Int} (h1 : compareInt a b = .lt)
    (h2 : compareInt b c = .lt) : compareInt a c = .lt := by
  rw [compareInt_lt_iff] at *
  omega

theorem compareChar_refl (a : Char) : compareChar a a = .eq :=
  compareNatO_refl _

theorem compareChar_eq_iff {a b : Char} : compareChar a b = .eq ↔ a = b := by
  unfold compareChar
  rw [compareNatO_eq_iff]
  constructor
  · intro h
    exact Char.eq_of_val_eq (UInt32.ext h)
  · intro h; rw [h]

theorem compareChar_swap (a b : Char) : compareChar a b = (compareChar b a).swap :=
  compareNatO_swap _ _

theorem compareChar_trans {a b c : Char} (h1 : compareChar a b = .lt)
    (h2 : compareChar b c = .lt) : compareChar a c = .lt :=
  compareNatO_trans h1 h2

theorem compareCharList_refl (l : List Char) : compareCharList l l = .eq := by
  induction l with
  | nil => rfl
  | cons a as ih => simp [compareCharList, compareChar_refl, Ordering.then, ih]

theorem compareCharList_eq_iff {l m : List Char} :
    compareCharList l m = .eq ↔ l = m := by
  induction l generalizing m with
  | nil => cases m <;> simp [compareCharList]
  | cons a as ih =>
    cases m with
    | nil => simp [compareCharList]
    | cons b bs =>
      simp only [compareCharList, Ordering.then_eq_eq, ih, compareChar_eq_iff]
      constructor
      · rintro ⟨h1, h2⟩; rw [h1, h2]
      · intro h; injection h with h1 h2; exact ⟨h1, h2⟩

theorem compareCharList_swap (l m : List Char) :
    compareCharList l m = (compareCharList m l).swap := by
  induction l generalizing m with
  | nil => cases m <;> rfl
  | cons a as ih =>
    cases m with
    | nil => rfl
    | cons b bs =>
      simp only [compareCharList, Ordering.swap_then, ← compareChar_swap, ih]

theorem compareCharList_trans {l m n : List Char}
    (h1 : compareCharList l m = .lt) (h2 : compareCharList m n = .lt) :
    compareCharList l n = .lt := by
  induction l generalizing m n with
  | nil =>
    cases m with
    | nil => exact absurd h1 (by simp [compareCharList])
    | cons b bs => cases n with
      | nil => exact absurd h2 (by simp [compareCharList])
      | cons c cs => simp [compareCharList]
  | cons a as ih =>
    cases m with
    | nil => exact absurd h1 (by simp [compareCharList])
    | cons b bs =>
      cases n with
      | nil => exact absurd h2 (by simp [compareCharList])
      | cons c cs =>
        simp only [compareCharList, Ordering.then_eq_lt] at h1 h2 ⊢
        rcases h1 with h1 | ⟨h1e, h1t⟩
        · rcases h2 with h2 | ⟨h2e, h2t⟩
          · exact Or.inl (compareChar_trans h1 h2)
          · rw [compareChar_eq_iff] at h2e; subst h2e; exact Or.inl h1
        · rw [compareChar_eq_iff] at h1e; subst h1e
          rcases h2 with h2 | ⟨h2e, h2t⟩
          · exact Or.inl h2
          · rw [compareChar_eq_iff] at h2e; subst h2e
            exact Or.inr ⟨compareChar_refl _, ih h1t h2t⟩

theorem compareStr_refl (a : String) : compareStr a a = .eq :=
  compareCharList_refl _

theorem compareStr_eq_iff {a b : String} : compareStr a b = .eq ↔ a = b := by
  unfold compareStr
  rw [compareCharList_eq_iff]
  constructor
  · intro h; cases a; cases b; exact congrArg String.mk h
  · intro h; rw [h]

theorem compareStr_swap (a b : String) : compareStr a b = (compareStr b a).swap :=
  compareCharList_swap _ _

theorem compareStr_trans {a b c : String} (h1 : compareStr a b = .lt)
    (h2 : compareStr b c = .lt) : compareStr a c = .lt :=
  compareCharList_trans h1 h2

theorem compareBool_refl (a : Bool) : compareBool a a = .eq := by
  cases a <;> rfl

theorem compareBool_eq_iff {a b : Bool} : compareBool a b = .eq ↔ a = b := by
  cases a <;> cases b <;> simp [compareBool]

theorem compareBool_swap (a b : Bool) : compareBool a b = (compareBool b a).swap := by
  cases a <;> cases b <;> rfl

theorem compareBool_trans {a b c : Bool} (h1 : compareBool a b = .lt)
    (h2 : compareBool b c = .lt) : compareBool a c = .lt := by
  cases a <;> cases b <;> cases c <;> simp_all [compareBool]

/-! ## Values and tuples -/

/-- The `Value` sum type of tuple elements, from `types.ts`
(`src/unnamed/part_000`): identifier/unicode string, number, boolean, null,
array of values, object (string-keyed map), and the `MIN`/`MAX` sentinels.
Numbers are modelled as `Int` (the source uses JS doubles; the claims under
study only involve integral numbers).  Objects are represented by their
entry lists sorted by key with absent-valued entries dropped (JS property
order is not semantic), so the comparator can walk entries element-wise,
matching §4.C1 "objects by entries sorted by key then by value". -/
inductive Value where
  | vmin : Value
  | vnull : Value
  | obj : List (String × Value) → Value
  | arr : List Value → Value
  | num : Int → Value
  | str : String → Value
  | bool : Bool → Value
  | vmax : Value

/-- A tuple is an ordered sequence of values (`types.ts`,
`src/unnamed/part_000`). -/
abbrev Tuple : Type := List Value

/-- Modelled from the spec: the type order of §4.C1 — MIN below all, then
null < object < array < number < string < boolean, MAX above all. -/
def typeRank : Value → Nat
  | .vmin => 0
  | .vnull => 1
  | .obj _ => 2
  | .arr _ => 3
  | .num _ => 4
  | .str _ => 5
  | .bool _ => 6
  | .vmax => 7

mutual

/-- Modelled from the spec: the element comparator of §4.C1
(`compareValue` in `helpers/compareTuple.ts`, not under `src/`).  Values of
the same base type compare numerically / by code point / false<true /
element-wise; values of different base types compare by the type order; the
sentinels sit below and above everything (each equal only to itself). -/
def compareValue : Value → Value → Ordering
  | .num x, .num y => compareInt x y
  | .str x, .str y => compareStr x y
  | .bool x, .bool y => compareBool x y
  | .arr xs, .arr ys => compareValueList xs ys
  | .obj xs, .obj ys => compareEntryList xs ys
  | a, b => compareNatO (typeRank a) (typeRank b)
termination_by a b => sizeOf a + sizeOf b

/-- Modelled from the spec: arrays compare element-wise, and a shorter
array that is a prefix of the other compares less (§4.C1). -/
def compareValueList : List Value → List Value → Ordering
  | [], [] => .eq
  | [], _ :: _ => .lt
  | _ :: _, [] => .gt
  | x :: xs, y :: ys => (compareValue x y).then (compareValueList xs ys)
termination_by l m => sizeOf l + sizeOf m

/-- Modelled from the spec: object entry lists (key-sorted, absent entries
dropped) compare by key, then value, then the remaining entries (§4.C1). -/
def compareEntryList :
    List (String × Value) → List (String × Value) → Ordering
  | [], [] => .eq
  | [], _ :: _ => .lt
  | _ :: _, [] => .gt
  | (k, v) :: xs, (l, w) :: ys =>
      ((compareStr k l).then (compareValue v w)).then (compareEntryList xs ys)
termination_by l m => sizeOf l + sizeOf m

end

@[simp] theorem compareValue_min_min : compareValue .vmin .vmin = .eq := by
  rw [compareValue.eq_def]; rfl

@[simp] theorem compareValue_null_null : compareValue .vnull .vnull = .eq := by
  rw [compareValue.eq_def]; rfl

@[simp] theorem compareValue_max_max : compareValue .vmax .vmax = .eq := by
  rw [compareValue.eq_def]; rfl

@[simp] theorem compareValue_num (x y : Int) :
    compareValue (.num x) (.num y) = compareInt x y := by
  rw [compareValue.eq_def]

@[simp] theorem compareValue_str (x y : String) :
    compareValue (.str x) (.str y) = compareStr x y := by
  rw [compareValue.eq_def]

@[simp] theorem compareValue_bool (x y : Bool) :
    compareValue (.bool x) (.bool y) = compareBool x y := by
  rw [compareValue.eq_def]

@[simp] theorem compareValue_arr (xs ys : List Value) :
    compareValue (.arr xs) (.arr ys) = compareValueList xs ys := by
  rw [compareValue.eq_def]

@[simp] theorem compareValue_obj (xs ys : List (String × Value)) :
    compareValue (.obj xs) (.obj ys) = compareEntryList xs ys := by
  rw [compareValue.eq_def]

@[simp] theorem compareValueList_nil_nil : compareValueList [] [] = .eq := by
  rw [compareValueList.eq_def]

@[simp] theorem compareValueList_nil_cons (y : Value) (ys : List Value) :
    compareValueList [] (y :: ys) = .lt := by
  rw [compareValueList.eq_def]

@[simp] theorem compareValueList_cons_nil (x : Value) (xs : List Value) :
    compareValueList (x :: xs) [] = .gt := by
  rw [compareValueList.eq_def]

@[simp] theorem compareValueList_cons_cons (x : Value) (xs : List Value)
    (y : Value) (ys : List Value) :
    compareValueList (x :: xs) (y :: ys) =
      (compareValue x y).then (compareValueList xs ys) := by
  rw [compareValueList.eq_def]

@[simp] theorem compareEntryList_nil_nil : compareEntryList [] [] = .eq := by
  rw [compareEntryList.eq_def]

@[simp] theorem compareEntryList_nil_cons (q : String × Value)
    (ys : List (String × Value)) : compareEntryList [] (q :: ys) = .lt := by
  rw [compareEntryList.eq_def]

@[simp] theorem compareEntryList_cons_nil (p : String × Value)
    (xs : List (String × Value)) : compareEntryList (p :: xs) [] = .gt := by
  rw [compareEntryList.eq_def]

@[simp] theorem compareEntryList_cons_cons (k : String) (v : Value)
    (xs : List (String × Value)) (l : String) (w : Value)
    (ys : List (String × Value)) :
    compareEntryList ((k, v) :: xs) ((l, w) :: ys) =
      ((compareStr k l).then (compareValue v w)).then
        (compareEntryList xs ys) := by
  rw [compareEntryList.eq_def]

mutual

theorem compareValue_refl (a : Value) : compareValue a a = .eq := by
  cases a with
  | vmin => simp
  | vnull => simp
  | vmax => simp
  | num x => rw [compareValue_num]; exact compareInt_refl x
  | str x => rw [compareValue_str]; exact compareStr_refl x
  | bool x => rw [compareValue_bool]; exact compareBool_refl x
  | arr l => rw [compareValue_arr]; exact compareValueList_refl l
  | obj l => rw [compareValue_obj]; exact compareEntryList_refl l
termination_by sizeOf a
decreasing_by all_goals simp_wf; all_goals omega

theorem compareValueList_refl (l : List Value) : compareValueList l l = .eq := by
  cases l with
  | nil => simp
  | cons x xs =>
    rw [compareValueList_cons_cons, compareValue_refl x,
      compareValueList_refl xs]
    rfl
termination_by sizeOf l
decreasing_by all_goals simp_wf; all_goals omega

theorem compareEntryList_refl (l : List (String × Value)) :
    compareEntryList l l = .eq := by
  cases l with
  | nil => simp
  | cons p xs =>
    obtain ⟨k, v⟩ := p
    rw [compareEntryList_cons_cons, compareStr_refl k, compareValue_refl v,
      compareEntryList_refl xs]
    rfl
termination_by sizeOf l
decreasing_by all_goals simp_wf; all_goals omega

end

mutual

theorem compareValue_eq_of_aux (a b : Value) : compareValue a b = .eq → a = b := by
  cases a with
  | vmin =>
    cases b <;> intro h <;>
      (rw [compareValue.eq_def] at h <;> simp [typeRank, compareNatO] at h <;>
       first | done | rfl)
  | vnull =>
    cases b <;> intro h <;>
      (rw [compareValue.eq_def] at h <;> simp [typeRank, compareNatO] at h <;>
       first | done | rfl)
  | vmax =>
    cases b <;> intro h <;>
      (rw [compareValue.eq_def] at h <;> simp [typeRank, compareNatO] at h <;>
       first | done | rfl)
  | num x =>
    cases b <;> intro h <;>
      first
      | (rw [compareValue.eq_def] at h <;> simp [typeRank, compareNatO] at h <;>
         done)
      | (rw [compareValue_num, compareInt_eq_iff] at h; rw [h])
  | str x =>
    cases b <;> intro h <;>
      first
      | (rw [compareValue.eq_def] at h <;> simp [typeRank, compareNatO] at h <;>
         done)
      | (rw [compareValue_str, compareStr_eq_iff] at h; rw [h])
  | bool x =>
    cases b <;> intro h <;>
      first
      | (rw [compareValue.eq_def] at h <;> simp [typeRank, compareNatO] at h <;>
         done)
      | (rw [compareValue_bool, compareBool_eq_iff] at h; rw [h])
  | arr l =>
    cases b <;> intro h <;>
      first
      | (rw [compareValue.eq_def] at h <;> simp [typeRank, compareNatO] at h <;>
         done)
      | skip
    rename_i m
    rw [compareValue_arr] at h
    rw [compareValueList_eq_of_aux _ _ h]
  | obj l =>
    cases b <;> intro h <;>
      first
      | (rw [compareValue.eq_def] at h <;> simp [typeRank, compareNatO] at h <;>
         done)
      | skip
    rename_i m
    rw [compareValue_obj] at h
    rw [compareEntryList_eq_of_aux _ _ h]
termination_by sizeOf a + sizeOf b
decreasing_by all_goals simp_wf; all_goals omega

theorem compareValueList_eq_of_aux (l m : List Value) :
    compareValueList l m = .eq → l = m := by
  cases l with
  | nil => cases m with
    | nil => intro h; rfl
    | cons y ys => intro h; simp at h
  | cons x xs =>
    cases m with
    | nil => intro h; simp at h
    | cons y ys =>
      intro h
      rw [compareValueList_cons_cons, Ordering.then_eq_eq] at h
      rw [compareValue_eq_of_aux _ _ h.1, compareValueList_eq_of_aux _ _ h.2]
termination_by sizeOf l + sizeOf m
decreasing_by all_goals simp_wf; all_goals omega

theorem compareEntryList_eq_of_aux (l m : List (String × Value)) :
    compareEntryList l m = .eq → l = m := by
  cases l with
  | nil => cases m with
    | nil => intro h; rfl
    | cons q ys => intro h; simp at h
  | cons p xs =>
    cases m with
    | nil => intro h; simp at h
    | cons q ys =>
      obtain ⟨k, v⟩ := p
      obtain ⟨k2, v2⟩ := q
      intro h
      rw [compareEntryList_cons_cons, Ordering.then_eq_eq,
        Ordering.then_eq_eq] at h
      obtain ⟨⟨hk, hv⟩, ht⟩ := h
      rw [compareStr_eq_iff] at hk
      rw [hk, compareValue_eq_of_aux _ _ hv, compareEntryList_eq_of_aux _ _ ht]
termination_by sizeOf l + sizeOf m
decreasing_by all_goals simp_wf; all_goals omega

end

theorem compareValue_eq_of {a b : Value} (h : compareValue a b = .eq) : a = b :=
  compareValue_eq_of_aux a b h

theorem compareValueList_eq_of {l m : List Value}
    (h : compareValueList l m = .eq) : l = m :=
  compareValueList_eq_of_aux l m h

theorem compareEntryList_eq_of {l m : List (String × Value)}
    (h : compareEntryList l m = .eq) : l = m :=
  compareEntryList_eq_of_aux l m h

theorem compareValue_eq_iff {a b : Value} : compareValue a b = .eq ↔ a = b :=
  ⟨compareValue_eq_of, fun h => h ▸ compareValue_refl a⟩

instance : DecidableEq Value := fun a b =>
  decidable_of_iff (compareValue a b = .eq) compareValue_eq_iff

mutual

theorem compareValue_swap (a b : Value) :
    compareValue a b = (compareValue b a).swap := by
  cases a with
  | vmin =>
    cases b <;>
      (rw [compareValue.eq_def] <;> (try rw [compareValue.eq_def]) <;>
       simp [typeRank, compareNatO, Ordering.swap])
  | vnull =>
    cases b <;>
      (rw [compareValue.eq_def] <;> (try rw [compareValue.eq_def]) <;>
       simp [typeRank, compareNatO, Ordering.swap])
  | vmax =>
    cases b <;>
      (rw [compareValue.eq_def] <;> (try rw [compareValue.eq_def]) <;>
       simp [typeRank, compareNatO, Ordering.swap])
  | num x =>
    cases b <;>
      first
      | (rw [compareValue.eq_def] <;> (try rw [compareValue.eq_def]) <;>
         simp [typeRank, compareNatO, Ordering.swap] <;> done)
      | (rename_i y; rw [compareValue_num, compareValue_num];
         exact compareInt_swap x y)
  | str x =>
    cases b <;>
      first
      | (rw [compareValue.eq_def] <;> (try rw [compareValue.eq_def]) <;>
         simp [typeRank, compareNatO, Ordering.swap] <;> done)
      | (rename_i y; rw [compareValue_str, compareValue_str];
         exact compareStr_swap x y)
  | bool x =>
    cases b <;>
      first
      | (rw [compareValue.eq_def] <;> (try rw [compareValue.eq_def]) <;>
         simp [typeRank, compareNatO, Ordering.swap] <;> done)
      | (rename_i y; rw [compareValue_bool, compareValue_bool];
         exact compareBool_swap x y)
  | arr l =>
    cases b <;>
      first
      | (rw [compareValue.eq_def] <;> (try rw [compareValue.eq_def]) <;>
         simp [typeRank, compareNatO, Ordering.swap] <;> done)
      | skip
    rename_i m
    rw [compareValue_arr, compareValue_arr]
    exact compareValueList_swap l m
  | obj l =>
    cases b <;>
      first
      | (rw [compareValue.eq_def] <;> (try rw [compareValue.eq_def]) <;>
         simp [typeRank, compareNatO, Ordering.swap] <;> done)
      | skip
    rename_i m
    rw [compareValue_obj, compareValue_obj]
    exact compareEntryList_swap l m
termination_by sizeOf a + sizeOf b
decreasing_by all_goals simp_wf; all_goals omega

theorem compareValueList_swap (l m : List Value) :
    compareValueList l m = (compareValueList m l).swap := by
  cases l with
  | nil => cases m <;> simp [Ordering.swap]
  | cons x xs =>
    cases m with
    | nil => simp [Ordering.swap]
    | cons y ys =>
      rw [compareValueList_cons_cons, compareValueList_cons_cons,
        Ordering.swap_then, ← compareValue_swap x y,
        ← compareValueList_swap xs ys]
termination_by sizeOf l + sizeOf m
decreasing_by all_goals simp_wf; all_goals omega

theorem compareEntryList_swap (l m : List (String × Value)) :
    compareEntryList l m = (compareEntryList m l).swap := by
  cases l with
  | nil =>
    cases m with
    | nil => simp [Ordering.swap]
    | cons q ys => simp [Ordering.swap]
  | cons p xs =>
    cases m with
    | nil => simp [Ordering.swap]
    | cons q ys =>
      obtain ⟨k, v⟩ := p
      obtain ⟨k2, v2⟩ := q
      rw [compareEntryList_cons_cons, compareEntryList_cons_cons,
        Ordering.swap_then, Ordering.swap_then, ← compareStr_swap k k2,
        ← compareValue_swap v v2, ← compareEntryList_swap xs ys]
termination_by sizeOf l + sizeOf m
decreasing_by all_goals simp_wf; all_goals omega

end

theorem compareValue_gt_iff {a b : Value} :
    compareValue a b = .gt ↔ compareValue b a = .lt := by
  rw [compareValue_swap a b]
  cases compareValue b a <;> simp [Ordering.swap]

theorem compareValue_rank_arm {a b : Value} (h : typeRank a ≠ typeRank b) :
    compareValue a b = compareNatO (typeRank a) (typeRank b) := by
  cases a <;> cases b <;>
    first
    | (rw [compareValue.eq_def]; first | done | rfl)
    | (exact absurd rfl h)

theorem compareValue_lt_rank {a b : Value} (h : compareValue a b = .lt) :
    typeRank a ≤ typeRank b := by
  by_cases hr : typeRank a = typeRank b
  · omega
  · rw [compareValue_rank_arm hr, compareNatO_lt_iff] at h
    omega

mutual

theorem compareValue_trans_aux (a b c : Value) : compareValue a b = .lt →
    compareValue b c = .lt → compareValue a c = .lt := by
  cases a with
  | vmin =>
    cases b <;> cases c <;> intro h1 h2 <;>
      first
      | (rw [compareValue.eq_def] <;> simp [typeRank, compareNatO] <;> done)
      | (rw [compareValue.eq_def] at h1 <;>
         simp [typeRank, compareNatO] at h1 <;> done)
      | (rw [compareValue.eq_def] at h2 <;>
         simp [typeRank, compareNatO] at h2 <;> done)
  | vnull =>
    cases b <;> cases c <;> intro h1 h2 <;>
      first
      | (rw [compareValue.eq_def] <;> simp [typeRank, compareNatO] <;> done)
      | (rw [compareValue.eq_def] at h1 <;>
         simp [typeRank, compareNatO] at h1 <;> done)
      | (rw [compareValue.eq_def] at h2 <;>
         simp [typeRank, compareNatO] at h2 <;> done)
  | vmax =>
    cases b <;> cases c <;> intro h1 h2 <;>
      first
      | (rw [compareValue.eq_def] <;> simp [typeRank, compareNatO] <;> done)
      | (rw [compareValue.eq_def] at h1 <;>
         simp [typeRank, compareNatO] at h1 <;> done)
      | (rw [compareValue.eq_def] at h2 <;>
         simp [typeRank, compareNatO] at h2 <;> done)
  | num x =>
    cases b <;> cases c <;> intro h1 h2 <;>
      first
      | (rw [compareValue.eq_def] <;> simp [typeRank, compareNatO] <;> done)
      | (rw [compareValue.eq_def] at h1 <;>
         simp [typeRank, compareNatO] at h1 <;> done)
      | (rw [compareValue.eq_def] at h2 <;>
         simp [typeRank, compareNatO] at h2 <;> done)
      | (rw [compareValue_num] at h1 h2 ⊢; exact compareInt_trans h1 h2)
  | str x =>
    cases b <;> cases c <;> intro h1 h2 <;>
      first
      | (rw [compareValue.eq_def] <;> simp [typeRank, compareNatO] <;> done)
      | (rw [compareValue.eq_def] at h1 <;>
         simp [typeRank, compareNatO] at h1 <;> done)
      | (rw [compareValue.eq_def] at h2 <;>
         simp [typeRank, compareNatO] at h2 <;> done)
      | (rw [compareValue_str] at h1 h2 ⊢; exact compareStr_trans h1 h2)
  | bool x =>
    cases b <;> cases c <;> intro h1 h2 <;>
      first
      | (rw [compareValue.eq_def] <;> simp [typeRank, compareNatO] <;> done)
      | (rw [compareValue.eq_def] at h1 <;>
         simp [typeRank, compareNatO] at h1 <;> done)
      | (rw [compareValue.eq_def] at h2 <;>
         simp [typeRank, compareNatO] at h2 <;> done)
      | (rw [compareValue_bool] at h1 h2 ⊢; exact compareBool_trans h1 h2)
  | arr l =>
    cases b <;> cases c <;> intro h1 h2 <;>
      first
      | (rw [compareValue.eq_def] <;> simp [typeRank, compareNatO] <;> done)
      | (rw [compareValue.eq_def] at h1 <;>
         simp [typeRank, compareNatO] at h1 <;> done)
      | (rw [compareValue.eq_def] at h2 <;>
         simp [typeRank, compareNatO] at h2 <;> done)
      | skip
    rename_i m n
    rw [compareValue_arr] at h1 h2 ⊢
    exact compareValueList_trans_aux _ _ _ h1 h2
  | obj l =>
    cases b <;> cases c <;> intro h1 h2 <;>
      first
      | (rw [compareValue.eq_def] <;> simp [typeRank, compareNatO] <;> done)
      | (rw [compareValue.eq_def] at h1 <;>
         simp [typeRank, compareNatO] at h1 <;> done)
      | (rw [compareValue.eq_def] at h2 <;>
         simp [typeRank, compareNatO] at h2 <;> done)
      | skip
    rename_i m n
    rw [compareValue_obj] at h1 h2 ⊢
    exact compareEntryList_trans_aux _ _ _ h1 h2
termination_by sizeOf a + sizeOf b + sizeOf c
decreasing_by all_goals simp_wf; all_goals omega

theorem compareValueList_trans_aux (l m n : List Value) :
    compareValueList l m = .lt → compareValueList m n = .lt →
    compareValueList l n = .lt := by
  cases l with
  | nil =>
    cases m with
    | nil => intro h1 h2; simp at h1
    | cons y ys =>
      cases n with
      | nil => intro h1 h2; simp at h2
      | cons z zs => intro h1 h2; simp
  | cons x xs =>
    cases m with
    | nil => intro h1 h2; simp at h1
    | cons y ys =>
      cases n with
      | nil => intro h1 h2; simp at h2
      | cons z zs =>
        intro h1 h2
        rw [compareValueList_cons_cons, Ordering.then_eq_lt] at h1 h2 ⊢
        rcases h1 with h1 | ⟨h1e, h1t⟩
        · rcases h2 with h2 | ⟨h2e, h2t⟩
          · exact Or.inl (compareValue_trans_aux _ _ _ h1 h2)
          · have := compareValue_eq_of_aux _ _ h2e
            subst this
            exact Or.inl h1
        · have := compareValue_eq_of_aux _ _ h1e
          subst this
          rcases h2 with h2 | ⟨h2e, h2t⟩
          · exact Or.inl h2
          · have := compareValue_eq_of_aux _ _ h2e
            subst this
            exact Or.inr ⟨compareValue_refl _,
              compareValueList_trans_aux _ _ _ h1t h2t⟩
termination_by sizeOf l + sizeOf m + sizeOf n
decreasing_by all_goals simp_wf; all_goals omega

theorem compareEntryList_trans_aux (l m n : List (String × Value)) :
    compareEntryList l m = .lt → compareEntryList m n = .lt →
    compareEntryList l n = .lt := by
  cases l with
  | nil =>
    cases m with
    | nil => intro h1 h2; simp at h1
    | cons q ys =>
      cases n with
      | nil => intro h1 h2; simp at h2
      | cons r zs => intro h1 h2; simp
  | cons p xs =>
    cases m with
    | nil => intro h1 h2; simp at h1
    | cons q ys =>
      cases n with
      | nil => intro h1 h2; simp at h2
      | cons r zs =>
        obtain ⟨k, v⟩ := p
        obtain ⟨k2, v2⟩ := q
        obtain ⟨k3, v3⟩ := r
        intro h1 h2
        rw [compareEntryList_cons_cons, Ordering.then_eq_lt] at h1 h2 ⊢
        rw [Ordering.then_eq_lt] at h1 h2 ⊢
        rw [Ordering.then_eq_eq] at h1 h2 ⊢
        rcases h1 with (h1 | ⟨h1e, h1v⟩) | ⟨⟨h1k, h1v⟩, h1t⟩
        · rcases h2 with (h2 | ⟨h2e, h2v⟩) | ⟨⟨h2k, h2v⟩, h2t⟩
          · exact Or.inl (Or.inl (compareStr_trans h1 h2))
          · rw [compareStr_eq_iff] at h2e; subst h2e
            exact Or.inl (Or.inl h1)
          · rw [compareStr_eq_iff] at h2k; subst h2k
            exact Or.inl (Or.inl h1)
        · rw [compareStr_eq_iff] at h1e; subst h1e
          rcases h2 with (h2 | ⟨h2e, h2v⟩) | ⟨⟨h2k, h2v⟩, h2t⟩
          · exact Or.inl (Or.inl h2)
          · rw [compareStr_eq_iff] at h2e; subst h2e
            exact Or.inl (Or.inr ⟨compareStr_refl _,
              compareValue_trans_aux _ _ _ h1v h2v⟩)
          · rw [compareStr_eq_iff] at h2k; subst h2k
            have := compareValue_eq_of_aux _ _ h2v; subst this
            exact Or.inl (Or.inr ⟨compareStr_refl _, h1v⟩)
        · rw [compareStr_eq_iff] at h1k; subst h1k
          have := compareValue_eq_of_aux _ _ h1v; subst this
          rcases h2 with (h2 | ⟨h2e, h2v⟩) | ⟨⟨h2k, h2v⟩, h2t⟩
          · exact Or.inl (Or.inl h2)
          · rw [compareStr_eq_iff] at h2e; subst h2e
            exact Or.inl (Or.inr ⟨compareStr_refl _, h2v⟩)
          · rw [compareStr_eq_iff] at h2k; subst h2k
            have := compareValue_eq_of_aux _ _ h2v; subst this
            exact Or.inr ⟨⟨compareStr_refl _, compareValue_refl _⟩,
              compareEntryList_trans_aux _ _ _ h1t h2t⟩
termination_by sizeOf l + sizeOf m + sizeOf n
decreasing_by all_goals simp_wf; all_goals omega

end

theorem compareValue_trans {a b c : Value} (h1 : compareValue a b = .lt)
    (h2 : compareValue b c = .lt) : compareValue a c = .lt :=
  compareValue_trans_aux a b c h1 h2

theorem compareValueList_trans {l m n : List Value}
    (h1 : compareValueList l m = .lt) (h2 : compareValueList m n = .lt) :
    compareValueList l n = .lt :=
  compareValueList_trans_aux l m n h1 h2

/-- Modelled from the spec: the tuple comparator — element-wise comparison
by the element comparator, with a shorter tuple that is a prefix of the
other comparing less (§4.C1, `compareTuple` in `helpers/compareTuple.ts`,
not under `src/`). -/
def compareTuple : Tuple → Tuple → Ordering
  | [], [] => .eq
  | [], _ :: _ => .lt
  | _ :: _, [] => .gt
  | a :: as, b :: bs => (compareValue a b).then (compareTuple as bs)

theorem compareTuple_refl (t : Tuple) : compareTuple t t = .eq := by
  induction t with
  | nil => rfl
  | cons a as ih =>
    simp [compareTuple, compareValue_refl, ih, Ordering.then]

theorem compareTuple_eq_iff {t u : Tuple} : compareTuple t u = .eq ↔ t = u := by
  induction t generalizing u with
  | nil => cases u <;> simp [compareTuple]
  | cons a as ih =>
    cases u with
    | nil => simp [compareTuple]
    | cons b bs =>
      simp only [compareTuple, Ordering.then_eq_eq, ih, compareValue_eq_iff,
        List.cons.injEq]

theorem compareTuple_swap (t u : Tuple) :
    compareTuple t u = (compareTuple u t).swap := by
  induction t generalizing u with
  | nil => cases u <;> rfl
  | cons a as ih =>
    cases u with
    | nil => rfl
    | cons b bs =>
      simp only [compareTuple, Ordering.swap_then]
      rw [← compareValue_swap a b, ← ih bs]

theorem compareTuple_trans {t u v : Tuple} (h1 : compareTuple t u = .lt)
    (h2 : compareTuple u v = .lt) : compareTuple t v = .lt := by
  induction t generalizing u v with
  | nil =>
    cases u with
    | nil => simp [compareTuple] at h1
    | cons b bs =>
      cases v with
      | nil => simp [compareTuple] at h2
      | cons c cs => simp [compareTuple]
  | cons a as ih =>
    cases u with
    | nil => simp [compareTuple] at h1
    | cons b bs =>
      cases v with
      | nil => simp [compareTuple] at h2
      | cons c cs =>
        simp only [compareTuple, Ordering.then_eq_lt] at h1 h2 ⊢
        rcases h1 with h1 | ⟨h1e, h1t⟩
        · rcases h2 with h2 | ⟨h2e, h2t⟩
          · exact Or.inl (compareValue_trans h1 h2)
          · rw [compareValue_eq_iff] at h2e
            subst h2e
            exact Or.inl h1
        · rw [compareValue_eq_iff] at h1e
          subst h1e
          rcases h2 with h2 | ⟨h2e, h2t⟩
          · exact Or.inl h2
          · rw [compareValue_eq_iff] at h2e
            subst h2e
            exact Or.inr ⟨compareValue_refl _, ih h1t h2t⟩

theorem compareTuple_gt_iff {t u : Tuple} :
    compareTuple t u = .gt ↔ compareTuple u t = .lt := by
  rw [compareTuple_swap t u]
  cases compareTuple u t <;> simp [Ordering.swap]

theorem compareTuple_lt_iff {t u : Tuple} :
    compareTuple t u = .lt ↔ compareTuple u t = .gt := by
  rw [compareTuple_gt_iff]

theorem compareTuple_lt_ne {t u : Tuple} (h : compareTuple t u = .lt) :
    t ≠ u := by
  intro he
  subst he
  rw [compareTuple_refl] at h
  exact absurd h (by simp)

theorem compareTuple_eq_of_eq {t u : Tuple} (h : t = u) :
    compareTuple t u = .eq := by
  subst h
  exact compareTuple_refl t

theorem compareTuple_ne_iff {t u : Tuple} :
    compareTuple t u ≠ .eq ↔ t ≠ u := by
  rw [not_iff_not]
  exact compareTuple_eq_iff

theorem compareTuple_append_left (p t u : Tuple) :
    compareTuple (p ++ t) (p ++ u) = compareTuple t u := by
  induction p with
  | nil => rfl
  | cons a as ih =>
    simp [List.cons_append, compareTuple, compareValue_refl, Ordering.then, ih]

theorem compareTuple_total (t u : Tuple) :
    compareTuple t u = .lt ∨ t = u ∨ compareTuple u t = .lt := by
  rcases he : compareTuple t u with _ | _ | _
  · exact Or.inl rfl
  · exact Or.inr (Or.inl (compareTuple_eq_iff.mp he))
  · exact Or.inr (Or.inr (compareTuple_gt_iff.mp he))

/-! ## Key-value pairs and scan arguments -/

/-- A key-value pair `{ key, value }` — `KeyValuePair` of `storage/types.ts`
(referenced from `src/unnamed/part_001`); the value type `V` is
application-chosen (§3). -/
structure KeyValuePair (V : Type) where
  key : Tuple
  value : V
deriving DecidableEq

/-- Scan arguments accepted by the storage layer: bounds and limit only —
`ScanStorageArgs` of `storage/types.ts` (referenced from
`src/unnamed/part_001`).  The `reverse` option is omitted from the model
(§9: the source paths under study ignore it). -/
structure ScanStorageArgs where
  gt : Option Tuple := none
  gte : Option Tuple := none
  lt : Option Tuple := none
  lte : Option Tuple := none
  limit : Option Nat := none
deriving DecidableEq

/-- Modelled from the spec: whether a tuple lies within the scan bounds —
`gt`/`gte` are the exclusive/inclusive lower bounds and `lt`/`lte` the
exclusive/inclusive upper bounds (§3, §4.C2). -/
def inBounds (args : ScanStorageArgs) (t : Tuple) : Bool :=
  (match args.gt with
   | none => true
   | some b => decide (compareTuple b t = .lt)) &&
  (match args.gte with
   | none => true
   | some b => decide (compareTuple b t ≠ .gt)) &&
  (match args.lt with
   | none => true
   | some b => decide (compareTuple t b = .lt)) &&
  (match args.lte with
   | none => true
   | some b => decide (compareTuple t b ≠ .gt))

/-- Modelled from the spec: apply the optional `limit` cap after slicing
(§4.C2). -/
def applyLimit {α : Type} (l : List α) : Option Nat → List α
  | none => l
  | some n => l.take n

/-- Sortedness of a pair array: keys strictly ascending under the tuple
comparator (§3 invariants). -/
def SortedPairs {V : Type} (l : List (KeyValuePair V)) : Prop :=
  l.Pairwise (fun p q => compareTuple p.key q.key = .lt)

/-- Sortedness of a tuple array: strictly ascending under the tuple
comparator (§3 invariants). -/
def SortedTuples (l : List Tuple) : Prop :=
  l.Pairwise (fun a b => compareTuple a b = .lt)

/-! ## Sorted tuple-value pair helpers

The module `helpers/sortedTupleValuePairs.ts` (imported as `tv` by the
clients) is not under `src/`; the operations are modelled from the spec
(§4.C2): every primitive is one binary search followed by a constant-time
splice, which extensionally is insertion ordered by the tuple comparator,
first-match replacement/deletion, and bounds-filtered slicing. -/

namespace sortedTupleValuePairs

variable {V : Type}

/-- Modelled from the spec: upsert — insert at the sorted position,
replacing a comparator-equal key (§4.C2). -/
def set : List (KeyValuePair V) → Tuple → V → List (KeyValuePair V)
  | [], key, value => [⟨key, value⟩]
  | p :: rest, key, value =>
    match compareTuple key p.key with
    | .lt => ⟨key, value⟩ :: p :: rest
    | .eq => ⟨key, value⟩ :: rest
    | .gt => p :: set rest key value

/-- Modelled from the spec: delete the pair found by binary search, if any
(§4.C2). -/
def remove : List (KeyValuePair V) → Tuple → List (KeyValuePair V)
  | [], _ => []
  | p :: rest, key =>
    if compareTuple key p.key = .eq then rest else p :: remove rest key

/-- Modelled from the spec: look up the value at the pair found by binary
search (§4.C2). -/
def get : List (KeyValuePair V) → Tuple → Option V
  | [], _ => none
  | p :: rest, key =>
    if compareTuple key p.key = .eq then some p.value else get rest key

/-- Modelled from the spec: whether the binary search finds the key
(`exists` in the source; renamed because `exists` collides with Lean
syntax) (§4.C2). -/
def existsb (l : List (KeyValuePair V)) (key : Tuple) : Bool :=
  (get l key).isSome

/-- Modelled from the spec: range scan over a sorted pair array — the
bounds-determined slice, with `limit` applied afterwards (§4.C2). -/
def scan (l : List (KeyValuePair V)) (args : ScanStorageArgs) :
    List (KeyValuePair V) :=
  applyLimit (l.filter fun p => inBounds args p.key) args.limit

end sortedTupleValuePairs

/-! ## Sorted tuple array helpers

The module `helpers/sortedTupleArray.ts` (imported as `t` by the clients)
is likewise modelled from the spec (§4.C2). -/

namespace sortedTupleArray

/-- Modelled from the spec: insert at the sorted position, keeping at most
one copy of a comparator-equal tuple (§4.C2). -/
def set : List Tuple → Tuple → List Tuple
  | [], t => [t]
  | u :: rest, t =>
    match compareTuple t u with
    | .lt => t :: u :: rest
    | .eq => t :: rest
    | .gt => u :: set rest t

/-- Modelled from the spec: delete the tuple found by binary search, if any
(§4.C2). -/
def remove : List Tuple → Tuple → List Tuple
  | [], _ => []
  | u :: rest, t =>
    if compareTuple t u = .eq then rest else u :: remove rest t

/-- Modelled from the spec: whether the binary search finds the tuple
(`exists` in the source; renamed because `exists` collides with Lean
syntax) (§4.C2). -/
def existsb : List Tuple → Tuple → Bool
  | [], _ => false
  | u :: rest, t =>
    if compareTuple t u = .eq then true else existsb rest t

/-- Modelled from the spec: range scan over a sorted tuple array (§4.C2). -/
def scan (l : List Tuple) (args : ScanStorageArgs) : List Tuple :=
  applyLimit (l.filter fun t => inBounds args t) args.limit

end sortedTupleArray

/-! ## Subspace helpers (modelled from spec §4.C3) -/

/-- Modelled from the spec: prepend the subspace prefix to a tuple
(`prependPrefixToTuple` in `helpers/subspaceHelpers.ts`, not under
`src/`). -/
def prependPrefixToTuple (p t : Tuple) : Tuple := p ++ t

/-- Modelled from the spec: strip the subspace prefix from a tuple
(`removePrefixFromTuple`); precondition: `p` is a prefix of `t`
(§4.C3). -/
def removePrefixFromTuple (p t : Tuple) : Tuple := t.drop p.length

/-- Modelled from the spec: strip the prefix from every pair of a scan
result (`removePrefixFromTupleValuePairs`, §4.C3). -/
def removePrefixFromTupleValuePairs {V : Type} (p : Tuple)
    (l : List (KeyValuePair V)) : List (KeyValuePair V) :=
  l.map fun q => ⟨removePrefixFromTuple p q.key, q.value⟩

/-- Client-level scan arguments (`ScanArgs` of `database/types.ts`,
referenced from `src/unnamed/part_001`): an optional prefix tuple plus
bounds and limit.  The source's `prefix` field is spelled `keyPrefix`
(`prefix` collides with Lean syntax); `reverse` is omitted (§9). -/
structure ScanArgs where
  keyPrefix : Option Tuple := none
  gt : Option Tuple := none
  gte : Option Tuple := none
  lt : Option Tuple := none
  lte : Option Tuple := none
  limit : Option Nat := none
deriving DecidableEq

/-- Modelled from the spec (§4.C3): `normalizeSubspaceScanArgs(P, args)`
prepends the subspace prefix `P` (extended by the `prefix` option, when
given) to every bound; when no lower (upper) bound is given and the
combined prefix is non-empty, the prefix becomes the inclusive bound
`prefix ++ [MIN]` (`prefix ++ [MAX]`); `limit` passes through. -/
def normalizeSubspaceScanArgs (p : Tuple) (args : ScanArgs) :
    ScanStorageArgs :=
  let pfx := p ++ args.keyPrefix.getD []
  { gt := args.gt.map (fun b => pfx ++ b)
    gte :=
      match args.gte, args.gt with
      | some b, _ => some (pfx ++ b)
      | none, some _ => none
      | none, none =>
        if pfx.isEmpty then none else some (pfx ++ [Value.vmin])
    lt := args.lt.map (fun b => pfx ++ b)
    lte :=
      match args.lte, args.lt with
      | some b, _ => some (pfx ++ b)
      | none, some _ => none
      | none, none =>
        if pfx.isEmpty then none else some (pfx ++ [Value.vmax])
    limit := args.limit }

/-! ## Errors and write batches -/

/-- Errors observable from the client layer: `ReadWriteConflictError` (the
class in `database/ConcurrencyLog.ts`, recognised with `instanceof` and
carrying an informational payload distinguishing instances), plain
`Error(message)` values thrown by the clients, and opaque errors thrown by
user functions. -/
inductive JsError where
  | readWriteConflict (info : Nat)
  | genericError (msg : String)
  | userError (info : Nat)
deriving DecidableEq

/-- The `error instanceof ReadWriteConflictError` test used by `retry`
(`src/src/database/sync/TupleDatabaseClient.ts`, line 358). -/
def JsError.isConflict : JsError → Bool
  | .readWriteConflict _ => true
  | _ => false

/-- A write batch `{ set, remove }` — `Writes` of `storage/types.ts`
(referenced from `src/unnamed/part_001`; the transactions under `src/`
initialise it as `{ set: [], remove: [] }`). -/
structure Writes (V : Type) where
  set : List (KeyValuePair V) := []
  remove : List Tuple := []
deriving DecidableEq

/-- Modelled from the spec: prepend the subspace prefix to every key of a
write batch (`prependPrefixToWrites`, §4.C3). -/
def prependPrefixToWrites {V : Type} (p : Tuple) (w : Writes V) : Writes V :=
  { set := w.set.map fun q => ⟨prependPrefixToTuple p q.key, q.value⟩
    remove := w.remove.map (prependPrefixToTuple p) }

/-! ## Engine model (modelled from spec §4.C4, §4.C6, §4.C7) -/

/-- Modelled from the spec: the engine read path — `TupleDatabase.scan`
delegates to the storage adapter, which returns the bounds-determined
slice of its sorted pair array with `limit` honored (§4.C4, §4.C7).  A
supplied `txId` only appends a read record to the concurrency log, which
the returned pairs do not depend on. -/
def dbScan {V : Type} (storage : List (KeyValuePair V))
    (args : ScanStorageArgs) : List (KeyValuePair V) :=
  sortedTupleValuePairs.scan storage args

/-- Modelled from the spec: atomic application of a write batch to storage —
removed keys are deleted and set pairs upserted (§4.C4). -/
def applyWrites {V : Type} (storage : List (KeyValuePair V)) (w : Writes V) :
    List (KeyValuePair V) :=
  w.set.foldl (fun acc q => sortedTupleValuePairs.set acc q.key q.value)
    (w.remove.foldl (fun acc k => sortedTupleValuePairs.remove acc k) storage)

/-- Modelled from the spec (§4.C6): the concurrency log, reduced to the
transaction-id tags of its entries (all the claims under study need). -/
def concurrencyLogCancel (txId : String) (log : List String) : List String :=
  log.filter (fun i => i ≠ txId)

/-! ## The synchronous transaction (`TupleTransaction`,
`src/src/database/sync/TupleDatabaseClient.ts`, lines 110–234) -/

/-- Transaction state: the immutable subspace prefix and id, the
`committed`/`canceled` flags, and the buffered `writes`
(`src/src/database/sync/TupleDatabaseClient.ts`, lines 113–121). -/
structure TupleTransaction (V : Type) where
  subspacePrefix : Tuple
  id : String
  committed : Bool := false
  canceled : Bool := false
  writes : Writes V := {}
deriving DecidableEq

namespace TupleTransaction

variable {V : Type}

/-- `checkActive` (sync source, lines 123–126): throw when the transaction
is already committed or already canceled. -/
def checkActive (tx : TupleTransaction V) : Except JsError Unit :=
  if tx.committed then
    .error (.genericError "Transaction already committed")
  else if tx.canceled then
    .error (.genericError "Transaction already canceled")
  else
    .ok ()

/-- Whether the transaction is still active (neither committed nor
canceled). -/
def isActive (tx : TupleTransaction V) : Bool :=
  !tx.committed && !tx.canceled

/-- `TupleTransaction.scan` (sync source, lines 128–148): check active,
normalize the arguments against the subspace prefix, fetch the engine scan,
strip the prefix, then overlay — upsert every buffered set in range and
delete every buffered remove in range. -/
def scan (storage : List (KeyValuePair V)) (tx : TupleTransaction V)
    (args : ScanArgs) : Except JsError (List (KeyValuePair V)) :=
  match checkActive tx with
  | .error e => .error e
  | .ok _ =>
    let storageScanArgs := normalizeSubspaceScanArgs tx.subspacePrefix args
    let pairs := dbScan storage storageScanArgs
    let result := removePrefixFromTupleValuePairs tx.subspacePrefix pairs
    let sets := sortedTupleValuePairs.scan tx.writes.set storageScanArgs
    let result := sets.foldl
      (fun r q => sortedTupleValuePairs.set r
        (removePrefixFromTuple tx.subspacePrefix q.key) q.value) result
    let removes := sortedTupleArray.scan tx.writes.remove storageScanArgs
    let result := removes.foldl
      (fun r k => sortedTupleValuePairs.remove r
        (removePrefixFromTuple tx.subspacePrefix k)) result
    .ok result

/-- `TupleTransaction.get` (sync source, lines 150–166): a buffered set
wins, a buffered remove yields `undefined`, otherwise the engine is
scanned at the single-point range `{gte: fullTuple, lte: fullTuple}`. -/
def get (storage : List (KeyValuePair V)) (tx : TupleTransaction V)
    (t : Tuple) : Except JsError (Option V) :=
  match checkActive tx with
  | .error e => .error e
  | .ok _ =>
    let fullTuple := prependPrefixToTuple tx.subspacePrefix t
    if sortedTupleValuePairs.existsb tx.writes.set fullTuple then
      .ok (sortedTupleValuePairs.get tx.writes.set fullTuple)
    else if sortedTupleArray.existsb tx.writes.remove fullTuple then
      .ok none
    else
      match dbScan storage { gte := some fullTuple, lte := some fullTuple } with
      | [] => .ok none
      | [p] => .ok (some p.value)
      | _ :: _ :: _ => .error (.genericError "Get expects only one value.")

/-- `TupleTransaction.exists` (sync source, lines 168–181; renamed —
`exists` collides with Lean syntax). -/
def existsb (storage : List (KeyValuePair V)) (tx : TupleTransaction V)
    (t : Tuple) : Except JsError Bool :=
  match checkActive tx with
  | .error e => .error e
  | .ok _ =>
    let fullTuple := prependPrefixToTuple tx.subspacePrefix t
    if sortedTupleValuePairs.existsb tx.writes.set fullTuple then
      .ok true
    else if sortedTupleArray.existsb tx.writes.remove fullTuple then
      .ok false
    else
      match dbScan storage { gte := some fullTuple, lte := some fullTuple } with
      | [] => .ok false
      | _ :: _ => .ok true

/-- `TupleTransaction.set` (sync source, lines 184–190): check active,
prepend the prefix, delete the key from the remove buffer, upsert it into
the set buffer. -/
def set (tx : TupleTransaction V) (t : Tuple) (v : V) :
    Except JsError (TupleTransaction V) :=
  match checkActive tx with
  | .error e => .error e
  | .ok _ =>
    let fullTuple := prependPrefixToTuple tx.subspacePrefix t
    .ok { tx with writes :=
      { set := sortedTupleValuePairs.set tx.writes.set fullTuple v
        remove := sortedTupleArray.remove tx.writes.remove fullTuple } }

/-- `TupleTransaction.remove` (sync source, lines 192–198): check active,
prepend the prefix, delete the key from the set buffer, insert it into the
remove buffer. -/
def remove (tx : TupleTransaction V) (t : Tuple) :
    Except JsError (TupleTransaction V) :=
  match checkActive tx with
  | .error e => .error e
  | .ok _ =>
    let fullTuple := prependPrefixToTuple tx.subspacePrefix t
    .ok { tx with writes :=
      { set := sortedTupleValuePairs.remove tx.writes.set fullTuple
        remove := sortedTupleArray.set tx.writes.remove fullTuple } }

/-- `TupleTransaction.write` (sync source, lines 200–213): check active,
then replay every batched remove through `remove` and every batched set
through `set`. -/
def write (tx : TupleTransaction V) (w : Writes V) :
    Except JsError (TupleTransaction V) :=
  match checkActive tx with
  | .error e => .error e
  | .ok _ =>
    match w.remove.foldlM (fun acc k => TupleTransaction.remove acc k) tx with
    | .error e => .error e
    | .ok tx1 => w.set.foldlM (fun acc q => TupleTransaction.set acc q.key q.value) tx1

/-- `TupleTransaction.commit` (sync source, lines 215–219): check active,
set `committed` — before the engine commit — then return the engine's
verdict.  `engineCommit` abstracts `db.commit(writes, id)`, which may
throw `ReadWriteConflictError` (§4.C6, §4.C7). -/
def commit {σ : Type} (engineCommit : Writes V → String → Except JsError σ)
    (tx : TupleTransaction V) : TupleTransaction V × Except JsError σ :=
  match checkActive tx with
  | .error e => (tx, .error e)
  | .ok _ => ({ tx with committed := true }, engineCommit tx.writes tx.id)

/-- `TupleTransaction.cancel` (sync source, lines 221–225): check active,
set `canceled`, then call `db.cancel(id)` (which releases the
concurrency-log entries, §4.C6). -/
def cancel {σ : Type} (engineCancel : String → Except JsError σ)
    (tx : TupleTransaction V) : TupleTransaction V × Except JsError σ :=
  match checkActive tx with
  | .error e => (tx, .error e)
  | .ok _ => ({ tx with canceled := true }, engineCancel tx.id)

end TupleTransaction

/-! ## The synchronous client (`TupleDatabaseClient`, sync source,
lines 31–108) -/

/-- Client state: the engine it wraps is represented by the storage passed
to each read operation; the client itself carries only the immutable
subspace prefix (sync source, lines 34–37). -/
structure TupleDatabaseClient where
  subspacePrefix : Tuple := []
deriving DecidableEq

namespace TupleDatabaseClient

variable {V : Type}

/-- `TupleDatabaseClient.scan` (sync source, lines 39–47): normalize the
arguments against the subspace prefix, fetch the engine scan, strip the
prefix. -/
def scan (storage : List (KeyValuePair V)) (c : TupleDatabaseClient)
    (args : ScanArgs) : List (KeyValuePair V) :=
  removePrefixFromTupleValuePairs c.subspacePrefix
    (dbScan storage (normalizeSubspaceScanArgs c.subspacePrefix args))

/-- `TupleDatabaseClient.get` (sync source, lines 72–82): scan the
single-point range `{gte: tuple, lte: tuple}`; `undefined` on an empty
result, the value on a single result, and an error on more than one. -/
def get (storage : List (KeyValuePair V)) (c : TupleDatabaseClient)
    (t : Tuple) : Except JsError (Option V) :=
  match scan storage c { gte := some t, lte := some t } with
  | [] => .ok none
  | [p] => .ok (some p.value)
  | _ :: _ :: _ => .error (.genericError "Get expects only one value.")

/-- `TupleDatabaseClient.exists` (sync source, lines 84–89; renamed —
`exists` collides with Lean syntax). -/
def existsb (storage : List (KeyValuePair V)) (c : TupleDatabaseClient)
    (t : Tuple) : Bool :=
  match scan storage c { gte := some t, lte := some t } with
  | [] => false
  | _ :: _ => true

/-- `TupleDatabaseClient.commit` (sync source, lines 63–66): prepend the
prefix to the batch and commit it to the engine (modelled by its effect on
storage). -/
def commit (storage : List (KeyValuePair V)) (c : TupleDatabaseClient)
    (w : Writes V) : List (KeyValuePair V) :=
  applyWrites storage (prependPrefixToWrites c.subspacePrefix w)

/-- `TupleDatabaseClient.subspace` (sync source, lines 92–97): a new client
with the extended prefix; the receiver is untouched. -/
def subspace (c : TupleDatabaseClient) (p : Tuple) : TupleDatabaseClient :=
  ⟨c.subspacePrefix ++ p⟩

/-- `TupleDatabaseClient.transact` (sync source, lines 100–103): a fresh
transaction carrying the client's subspace prefix and the given id (the
source draws a random id when none is passed). -/
def transact (c : TupleDatabaseClient) (txId : String) :
    TupleTransaction V :=
  { subspacePrefix := c.subspacePrefix, id := txId }

end TupleDatabaseClient

/-! ## The asynchronous family (`AsyncTupleTransaction` /
`AsyncTupleDatabaseClient`, `src/src/database/async/AsyncTupleDatabaseClient.ts`).
Promises are erased in the shallow embedding: an `async` method returning
`Promise<T>` is a function returning `T`, every `await` is direct
application, and the cooperative-suspension scheduling (§5) is out of
scope.  The field layout and method bodies below are translated from the
async source, which the sync file is generated from. -/

/-- Transaction state of `AsyncTupleTransaction` (async source, lines
106–117): identical fields to the sync transaction. -/
structure AsyncTupleTransaction (V : Type) where
  subspacePrefix : Tuple
  id : String
  committed : Bool := false
  canceled : Bool := false
  writes : Writes V := {}
deriving DecidableEq

/-- The field-for-field correspondence between the async and sync
transaction states. -/
def AsyncTupleTransaction.toSync {V : Type} (tx : AsyncTupleTransaction V) :
    TupleTransaction V :=
  { subspacePrefix := tx.subspacePrefix, id := tx.id,
    committed := tx.committed, canceled := tx.canceled, writes := tx.writes }

namespace AsyncTupleTransaction

variable {V : Type}

/-- `checkActive` (async source, lines 119–122). -/
def checkActive (tx : AsyncTupleTransaction V) : Except JsError Unit :=
  if tx.committed then
    .error (.genericError "Transaction already committed")
  else if tx.canceled then
    .error (.genericError "Transaction already canceled")
  else
    .ok ()

/-- `AsyncTupleTransaction.scan` (async source, lines 124–144). -/
def scan (storage : List (KeyValuePair V)) (tx : AsyncTupleTransaction V)
    (args : ScanArgs) : Except JsError (List (KeyValuePair V)) :=
  match checkActive tx with
  | .error e => .error e
  | .ok _ =>
    let storageScanArgs := normalizeSubspaceScanArgs tx.subspacePrefix args
    let pairs := dbScan storage storageScanArgs
    let result := removePrefixFromTupleValuePairs tx.subspacePrefix pairs
    let sets := sortedTupleValuePairs.scan tx.writes.set storageScanArgs
    let result := sets.foldl
      (fun r q => sortedTupleValuePairs.set r
        (removePrefixFromTuple tx.subspacePrefix q.key) q.value) result
    let removes := sortedTupleArray.scan tx.writes.remove storageScanArgs
    let result := removes.foldl
      (fun r k => sortedTupleValuePairs.remove r
        (removePrefixFromTuple tx.subspacePrefix k)) result
    .ok result

/-- `AsyncTupleTransaction.get` (async source, lines 146–167). -/
def get (storage : List (KeyValuePair V)) (tx : AsyncTupleTransaction V)
    (t : Tuple) : Except JsError (Option V) :=
  match checkActive tx with
  | .error e => .error e
  | .ok _ =>
    let fullTuple := prependPrefixToTuple tx.subspacePrefix t
    if sortedTupleValuePairs.existsb tx.writes.set fullTuple then
      .ok (sortedTupleValuePairs.get tx.writes.set fullTuple)
    else if sortedTupleArray.existsb tx.writes.remove fullTuple then
      .ok none
    else
      match dbScan storage { gte := some fullTuple, lte := some fullTuple } with
      | [] => .ok none
      | [p] => .ok (some p.value)
      | _ :: _ :: _ => .error (.genericError "Get expects only one value.")

/-- `AsyncTupleTransaction.exists` (async source, lines 169–185). -/
def existsb (storage : List (KeyValuePair V)) (tx : AsyncTupleTransaction V)
    (t : Tuple) : Except JsError Bool :=
  match checkActive tx with
  | .error e => .error e
  | .ok _ =>
    let fullTuple := prependPrefixToTuple tx.subspacePrefix t
    if sortedTupleValuePairs.existsb tx.writes.set fullTuple then
      .ok true
    else if sortedTupleArray.existsb tx.writes.remove fullTuple then
      .ok false
    else
      match dbScan storage { gte := some fullTuple, lte := some fullTuple } with
      | [] => .ok false
      | _ :: _ => .ok true

/-- `AsyncTupleTransaction.set` (async source, lines 188–197). -/
def set (tx : AsyncTupleTransaction V) (t : Tuple) (v : V) :
    Except JsError (AsyncTupleTransaction V) :=
  match checkActive tx with
  | .error e => .error e
  | .ok _ =>
    let fullTuple := prependPrefixToTuple tx.subspacePrefix t
    .ok { tx with writes :=
      { set := sortedTupleValuePairs.set tx.writes.set fullTuple v
        remove := sortedTupleArray.remove tx.writes.remove fullTuple } }

/-- `AsyncTupleTransaction.remove` (async source, lines 199–205). -/
def remove (tx : AsyncTupleTransaction V) (t : Tuple) :
    Except JsError (AsyncTupleTransaction V) :=
  match checkActive tx with
  | .error e => .error e
  | .ok _ =>
    let fullTuple := prependPrefixToTuple tx.subspacePrefix t
    .ok { tx with writes :=
      { set := sortedTupleValuePairs.remove tx.writes.set fullTuple
        remove := sortedTupleArray.set tx.writes.remove fullTuple } }

/-- `AsyncTupleTransaction.write` (async source, lines 207–220). -/
def write (tx : AsyncTupleTransaction V) (w : Writes V) :
    Except JsError (AsyncTupleTransaction V) :=
  match checkActive tx with
  | .error e => .error e
  | .ok _ =>
    match w.remove.foldlM (fun acc k => AsyncTupleTransaction.remove acc k) tx with
    | .error e => .error e
    | .ok tx1 =>
      w.set.foldlM (fun acc q => AsyncTupleTransaction.set acc q.key q.value) tx1

/-- `AsyncTupleTransaction.commit` (async source, lines 222–226). -/
def commit {σ : Type} (engineCommit : Writes V → String → Except JsError σ)
    (tx : AsyncTupleTransaction V) :
    AsyncTupleTransaction V × Except JsError σ :=
  match checkActive tx with
  | .error e => (tx, .error e)
  | .ok _ => ({ tx with committed := true }, engineCommit tx.writes tx.id)

/-- `AsyncTupleTransaction.cancel` (async source, lines 228–232). -/
def cancel {σ : Type} (engineCancel : String → Except JsError σ)
    (tx : AsyncTupleTransaction V) :
    AsyncTupleTransaction V × Except JsError σ :=
  match checkActive tx with
  | .error e => (tx, .error e)
  | .ok _ => ({ tx with canceled := true }, engineCancel tx.id)

end AsyncTupleTransaction

/-- Client state of `AsyncTupleDatabaseClient` (async source, lines
27–33). -/
structure AsyncTupleDatabaseClient where
  subspacePrefix : Tuple := []
deriving DecidableEq

/-- The field-for-field correspondence between the async and sync client
states. -/
def AsyncTupleDatabaseClient.toSync (c : AsyncTupleDatabaseClient) :
    TupleDatabaseClient :=
  ⟨c.subspacePrefix⟩

namespace AsyncTupleDatabaseClient

variable {V : Type}

/-- `AsyncTupleDatabaseClient.scan` (async source, lines 35–43). -/
def scan (storage : List (KeyValuePair V)) (c : AsyncTupleDatabaseClient)
    (args : ScanArgs) : List (KeyValuePair V) :=
  removePrefixFromTupleValuePairs c.subspacePrefix
    (dbScan storage (normalizeSubspaceScanArgs c.subspacePrefix args))

/-- `AsyncTupleDatabaseClient.get` (async source, lines 68–78). -/
def get (storage : List (KeyValuePair V)) (c : AsyncTupleDatabaseClient)
    (t : Tuple) : Except JsError (Option V) :=
  match scan storage c { gte := some t, lte := some t } with
  | [] => .ok none
  | [p] => .ok (some p.value)
  | _ :: _ :: _ => .error (.genericError "Get expects only one value.")

/-- `AsyncTupleDatabaseClient.exists` (async source, lines 80–85). -/
def existsb (storage : List (KeyValuePair V)) (c : AsyncTupleDatabaseClient)
    (t : Tuple) : Bool :=
  match scan storage c { gte := some t, lte := some t } with
  | [] => false
  | _ :: _ => true

/-- `AsyncTupleDatabaseClient.commit` (async source, lines 59–62). -/
def commit (storage : List (KeyValuePair V)) (c : AsyncTupleDatabaseClient)
    (w : Writes V) : List (KeyValuePair V) :=
  applyWrites storage (prependPrefixToWrites c.subspacePrefix w)

/-- `AsyncTupleDatabaseClient.subspace` (async source, lines 88–93). -/
def subspace (c : AsyncTupleDatabaseClient) (p : Tuple) :
    AsyncTupleDatabaseClient :=
  ⟨c.subspacePrefix ++ p⟩

/-- `AsyncTupleDatabaseClient.transact` (async source, lines 96–99). -/
def transact (c : AsyncTupleDatabaseClient) (txId : String) :
    AsyncTupleTransaction V :=
  { subspacePrefix := c.subspacePrefix, id := txId }

end AsyncTupleDatabaseClient

/-! ## The retry wrapper (`transactionalQuery` / `retry`,
`src/src/database/sync/TupleDatabaseClient.ts`, lines 324–363) -/

/-- The retry loop (`retry`, sync source, lines 351–363): run the
attempt; on a thrown error, rethrow when no retries remain
(`retries <= 0`) or when the error is not a `ReadWriteConflictError`
(`instanceof` test), otherwise decrement `retries` and loop.  The source's
closure's successive invocations are modelled by indexing the attempt
function with the attempt number `k`. -/
def retry {O : Type} (retries : Nat) (k : Nat)
    (fn : Nat → Except JsError O) : Except JsError O :=
  match fn k with
  | .ok r => .ok r
  | .error e =>
    match retries with
    | 0 => .error e
    | n + 1 => if e.isConflict then retry n (k + 1) fn else .error e

/-- One attempt body of `transactionalQuery` over a database client (sync
source, lines 335–346): open a fresh transaction, run the user function
(modelled as a transformer of the transaction state and the concurrency
log returning an `Except` outcome); when it throws, `tx.cancel()` and
rethrow — a failing cancel (transaction no longer active) replaces the
error; otherwise `tx.commit()`, whose engine verdict (`engineCommit`,
possibly a `ReadWriteConflictError`) and resulting log are returned. -/
def txAttempt {V O : Type} (sp : Tuple) (txId : String)
    (fn : TupleTransaction V → List String →
      TupleTransaction V × List String × Except JsError O)
    (engineCommit : Writes V → String → List String →
      List String × Except JsError Unit)
    (log : List String) :
    TupleTransaction V × List String × Except JsError O :=
  let tx0 : TupleTransaction V := { subspacePrefix := sp, id := txId }
  match fn tx0 log with
  | (tx1, log1, .error e) =>
    match TupleTransaction.checkActive tx1 with
    | .error e2 => (tx1, log1, .error e2)
    | .ok _ =>
      ({ tx1 with canceled := true },
        concurrencyLogCancel tx1.id log1, .error e)
  | (tx1, log1, .ok v) =>
    match TupleTransaction.checkActive tx1 with
    | .error e2 => (tx1, log1, .error e2)
    | .ok _ =>
      let r := engineCommit tx1.writes tx1.id log1
      ({ tx1 with committed := true }, r.1,
        match r.2 with
        | .ok _ => .ok v
        | .error e2 => .error e2)

/-- Whether `transactionalQuery`'s argument is a database client or an
already-open transaction (the source's `"set" in dbOrTx` test, line
334). -/
inductive DbOrTx (V : Type) where
  | db (client : TupleDatabaseClient)
  | tx (txn : TupleTransaction V)

/-- `transactionalQuery` (sync source, lines 324–349): a transaction
argument runs the user function directly without wrapping; a database
client runs up to `retries` retry attempts through `retry`, each attempt
opening, running, and committing or cancelling a fresh transaction.  The
engine-state evolution across attempts is abstracted by the
attempt-indexed outcome `attempts`. -/
def transactionalQuery {V O : Type} (retries : Nat)
    (attempts : Nat → Except JsError O)
    (fnOnTx : TupleTransaction V → Except JsError O)
    (dbOrTx : DbOrTx V) : Except JsError O :=
  match dbOrTx with
  | .tx t => fnOnTx t
  | .db _ => retry retries 0 attempts

/-! ## Helper notions for the claim theorems -/

/-- The error `checkActive` throws on a closed transaction: the
already-committed message when `committed` is set, else the
already-canceled one (sync source, lines 123–126). -/
def TupleTransaction.closedError {V : Type} (tx : TupleTransaction V) :
    JsError :=
  if tx.committed then .genericError "Transaction already committed"
  else .genericError "Transaction already canceled"

theorem TupleTransaction.checkActive_closed {V : Type}
    {tx : TupleTransaction V} (h : tx.committed = true ∨ tx.canceled = true) :
    tx.checkActive = .error tx.closedError := by
  unfold TupleTransaction.checkActive TupleTransaction.closedError
  by_cases hc : tx.committed <;> rcases h with h | h <;> simp_all

theorem TupleTransaction.checkActive_active {V : Type}
    {tx : TupleTransaction V} (h : tx.isActive = true) :
    tx.checkActive = .ok () := by
  unfold TupleTransaction.isActive at h
  unfold TupleTransaction.checkActive
  simp only [Bool.and_eq_true, Bool.not_eq_true'] at h
  simp [h.1, h.2]

/-- The always-succeeding engine commit over a concrete storage state:
`db.commit` applies the batch to storage (§4.C4, §4.C7) when no conflict is
detected. -/
def engineCommitOnStorage {V : Type} (storage : List (KeyValuePair V)) :
    Writes V → String → Except JsError (List (KeyValuePair V)) :=
  fun w _ => .ok (applyWrites storage w)

/-! ## Claim C6 -/

/-- Every operation of a closed transaction throws the transaction-closed
error (shared helper for the claim theorems below). -/
theorem TupleTransaction.closed_ops {V σ τ : Type}
    (tx : TupleTransaction V)
    (h : tx.committed = true ∨ tx.canceled = true) :
    (∀ storage args,
      TupleTransaction.scan storage tx args = .error tx.closedError) ∧
    (∀ storage t,
      TupleTransaction.get storage tx t = .error tx.closedError) ∧
    (∀ storage t,
      TupleTransaction.existsb storage tx t = .error tx.closedError) ∧
    (∀ t v, tx.set t v = .error tx.closedError) ∧
    (∀ t, tx.remove t = .error tx.closedError) ∧
    (∀ w, tx.write w = .error tx.closedError) ∧
    (∀ ec : Writes V → String → Except JsError σ,
      TupleTransaction.commit ec tx = (tx, .error tx.closedError)) ∧
    (∀ ecl : String → Except JsError τ,
      TupleTransaction.cancel ecl tx = (tx, .error tx.closedError)) := by
  have hca := TupleTransaction.checkActive_closed h
  refine ⟨?_, ?_, ?_, ?_, ?_, ?_, ?_, ?_⟩ <;> intros <;>
    simp [TupleTransaction.scan, TupleTransaction.get,
      TupleTransaction.existsb, TupleTransaction.set,
      TupleTransaction.remove, TupleTransaction.write,
      TupleTransaction.commit, TupleTransaction.cancel, hca]

/-- C6: every operation on an already-committed or already-canceled
transaction — scan, get, exists, set, remove, write, commit, cancel —
throws the transaction-closed error, and a second commit or cancel
returns the transaction state (hence its buffered writes) unchanged
alongside the error. -/
theorem closed_transaction_every_op_throws {V σ τ : Type}
    (tx : TupleTransaction V)
    (h : tx.committed = true ∨ tx.canceled = true) :
    (∀ storage args,
      TupleTransaction.scan storage tx args = .error tx.closedError) ∧
    (∀ storage t,
      TupleTransaction.get storage tx t = .error tx.closedError) ∧
    (∀ storage t,
      TupleTransaction.existsb storage tx t = .error tx.closedError) ∧
    (∀ t v, tx.set t v = .error tx.closedError) ∧
    (∀ t, tx.remove t = .error tx.closedError) ∧
    (∀ w, tx.write w = .error tx.closedError) ∧
    (∀ ec : Writes V → String → Except JsError σ,
      TupleTransaction.commit ec tx = (tx, .error tx.closedError)) ∧
    (∀ ecl : String → Except JsError τ,
      TupleTransaction.cancel ecl tx = (tx, .error tx.closedError)) :=
  TupleTransaction.closed_ops tx h

/-- A concrete already-committed transaction instantiating the\nclosed-transaction theorem. -/
def closedTxInt : TupleTransaction Int := ⟨[], "t1", true, false, {}⟩

theorem closed_transaction_every_op_throws_witness :
    (closedTxInt.committed = true ∨ closedTxInt.canceled = true) ∧
    ((∀ storage args, TupleTransaction.scan storage closedTxInt args =
        .error closedTxInt.closedError) ∧
      (∀ storage t, TupleTransaction.get storage closedTxInt t =
        .error closedTxInt.closedError) ∧
      (∀ storage t, TupleTransaction.existsb storage closedTxInt t =
        .error closedTxInt.closedError) ∧
      (∀ t v, closedTxInt.set t v = .error closedTxInt.closedError) ∧
      (∀ t, closedTxInt.remove t = .error closedTxInt.closedError) ∧
      (∀ w, closedTxInt.write w = .error closedTxInt.closedError) ∧
      (∀ ec : Writes Int → String → Except JsError Unit,
        TupleTransaction.commit ec closedTxInt =
          (closedTxInt, .error closedTxInt.closedError)) ∧
      (∀ ecl : String → Except JsError Unit,
        TupleTransaction.cancel ecl closedTxInt =
          (closedTxInt, .error closedTxInt.closedError))) :=
  ⟨Or.inl rfl, closed_transaction_every_op_throws closedTxInt (Or.inl rfl)⟩

/-! ## Claim C10 -/

/-- C10: `commit()` sets the `committed` flag before submitting the batch
to the engine, so for any engine verdict — including a thrown
`ReadWriteConflictError` — the resulting transaction is
`{tx with committed := true}` and the engine's verdict is passed through;
afterwards a retried commit, a cancel, or a scan all throw
"Transaction already committed". -/
theorem commit_marks_committed_before_engine {V σ σ2 σ3 : Type}
    (tx : TupleTransaction V) (h : tx.isActive = true)
    (ec : Writes V → String → Except JsError σ) :
    (TupleTransaction.commit ec tx =
      ({ tx with committed := true }, ec tx.writes tx.id)) ∧
    (∀ ec2 : Writes V → String → Except JsError σ2,
      TupleTransaction.commit ec2 (TupleTransaction.commit ec tx).1 =
        ((TupleTransaction.commit ec tx).1,
          .error (.genericError "Transaction already committed"))) ∧
    (∀ ecl : String → Except JsError σ3,
      TupleTransaction.cancel ecl (TupleTransaction.commit ec tx).1 =
        ((TupleTransaction.commit ec tx).1,
          .error (.genericError "Transaction already committed"))) ∧
    (∀ storage args,
      TupleTransaction.scan storage (TupleTransaction.commit ec tx).1 args =
        .error (.genericError "Transaction already committed")) := by
  have hca := TupleTransaction.checkActive_active h
  have hcm : TupleTransaction.commit ec tx =
      ({ tx with committed := true }, ec tx.writes tx.id) := by
    simp [TupleTransaction.commit, hca]
  have hops := @TupleTransaction.closed_ops V σ2 σ3
    ({ tx with committed := true }) (Or.inl rfl)
  have hce : TupleTransaction.closedError
      ({ tx with committed := true } : TupleTransaction V) =
      .genericError "Transaction already committed" := by
    simp [TupleTransaction.closedError]
  refine ⟨hcm, ?_, ?_, ?_⟩
  · intro ec2
    rw [hcm]
    have := hops.2.2.2.2.2.2.1 ec2
    rw [hce] at this
    exact this
  · intro ecl
    rw [hcm]
    have := hops.2.2.2.2.2.2.2 ecl
    rw [hce] at this
    exact this
  · intro storage args
    rw [hcm]
    have := hops.1 storage args
    rw [hce] at this
    exact this

theorem commit_marks_committed_before_engine_witness :
    ((⟨[], "t1", false, false, {}⟩ : TupleTransaction Int).isActive = true) ∧
    ((TupleTransaction.commit
        (fun _ _ => (.error (.readWriteConflict 0) : Except JsError Unit))
        (⟨[], "t1", false, false, {}⟩ : TupleTransaction Int)).1.committed =
      true) :=
  ⟨rfl, by
    have h := @commit_marks_committed_before_engine Int Unit Unit Unit
      (⟨[], "t1", false, false, {}⟩ : TupleTransaction Int) rfl
      (fun _ _ => (.error (.readWriteConflict 0) : Except JsError Unit))
    rw [h.1]⟩

/-! ## Claims C2 and C3 -/

/-- C2 counterexample: with the default retry count 5 and every attempt
failing with a `ReadWriteConflictError` (distinct payloads distinguishing
the attempts), the error that propagates out of `retry` is the one thrown
by attempt index 5 — the SIXTH invocation of the user function — so the
wrapper does not stop after 5 invocations: `retries = 5` means one initial
attempt plus five retries. -/
theorem retry_default_sixth_attempt_error_propagates :
    retry 5 0
      (fun k => (.error (.readWriteConflict k) : Except JsError Nat)) =
      .error (.readWriteConflict 5) := by
  rfl

/-- C2 (amended): the result of `retry retries k fn` depends only on the
attempts `k … k + retries` — so the user function is invoked at most
`retries + 1` times (6 with the default 5) — and when every attempt fails
with a `ReadWriteConflictError` the propagated error is exactly the one of
attempt `k + retries`, the `(retries + 1)`-th invocation. -/
theorem retry_runs_at_most_retries_plus_one_attempts {O : Type} :
    (∀ (retries k : Nat) (fn g : Nat → Except JsError O),
      (∀ i, k ≤ i → i ≤ k + retries → fn i = g i) →
      retry retries k fn = retry retries k g) ∧
    (∀ (retries k : Nat) (fn : Nat → Except JsError O) (e : Nat → Nat),
      (∀ i, fn i = .error (.readWriteConflict (e i))) →
      retry retries k fn = .error (.readWriteConflict (e (k + retries)))) := by
  constructor
  · intro retries
    induction retries with
    | zero =>
      intro k fn g hag
      have hk := hag k (Nat.le_refl k) (by omega)
      unfold retry
      rw [hk]
    | succ n ih =>
      intro k fn g hag
      have hk := hag k (Nat.le_refl k) (by omega)
      unfold retry
      rw [hk]
      cases g k with
      | ok r => rfl
      | error e =>
        by_cases hc : e.isConflict
        · simp only [hc, if_true]
          exact ih (k + 1) fn g (fun i h1 h2 => hag i (by omega) (by omega))
        · simp [hc]
  · intro retries
    induction retries with
    | zero =>
      intro k fn e hfn
      unfold retry
      rw [hfn k]
      rfl
    | succ n ih =>
      intro k fn e hfn
      unfold retry
      rw [hfn k]
      simp only [JsError.isConflict, if_true]
      have hr := ih (k + 1) fn e hfn
      have harr : k + 1 + n = k + (n + 1) := by omega
      rw [hr, harr]

theorem retry_runs_at_most_retries_plus_one_attempts_witness :
    ((∀ i, i ≤ 0 → i ≤ 0 + 2 →
        (fun j => (.error (.readWriteConflict j) : Except JsError Nat)) i =
        (fun j => (.error (.readWriteConflict j) : Except JsError Nat)) i) ∧
      (∀ i, (fun j => (.error (.readWriteConflict j) : Except JsError Nat)) i =
        .error (.readWriteConflict i))) ∧
    (retry 2 0 (fun j => (.error (.readWriteConflict j) : Except JsError Nat)) =
        retry 2 0 (fun j => (.error (.readWriteConflict j) : Except JsError Nat)) ∧
      retry 2 0 (fun j => (.error (.readWriteConflict j) : Except JsError Nat)) =
        .error (.readWriteConflict (0 + 2))) :=
  ⟨⟨fun _ _ _ => rfl, fun _ => rfl⟩,
    (retry_runs_at_most_retries_plus_one_attempts).1 2 0 _ _
      (fun _ _ _ => rfl),
    (retry_runs_at_most_retries_plus_one_attempts).2 2 0 _ (fun i => i)
      (fun _ => rfl)⟩

/-- C3: `retry` recovers only from `ReadWriteConflictError`: when the
current attempt throws a non-conflict error it is rethrown immediately —
for every remaining retry budget, without inspecting any later attempt —
while a conflict with remaining budget moves on to the next attempt, and
a conflict with exhausted budget is rethrown. -/
theorem retry_rethrows_non_conflict_immediately {O : Type} (k : Nat)
    (fn : Nat → Except JsError O) (e : JsError) (hf : fn k = .error e) :
    (∀ retries, e.isConflict = false → retry retries k fn = .error e) ∧
    (∀ n, e.isConflict = true → retry (n + 1) k fn = retry n (k + 1) fn) ∧
    (retry 0 k fn = .error e) := by
  refine ⟨?_, ?_, ?_⟩
  · intro retries hnc
    unfold retry
    rw [hf]
    cases retries with
    | zero => rfl
    | succ n => simp [hnc]
  · intro n hc
    conv_lhs => unfold retry
    rw [hf]
    simp [hc]
  · unfold retry
    rw [hf]

theorem retry_rethrows_non_conflict_immediately_witness :
    ((fun j => (.error (.userError j) : Except JsError Nat)) 0 =
      .error (.userError 0)) ∧
    ((∀ retries, (JsError.userError 0).isConflict = false →
        retry retries 0
          (fun j => (.error (.userError j) : Except JsError Nat)) =
          .error (.userError 0)) ∧
      (∀ n, (JsError.userError 0).isConflict = true →
        retry (n + 1) 0
          (fun j => (.error (.userError j) : Except JsError Nat)) =
          retry n 1 (fun j => (.error (.userError j) : Except JsError Nat))) ∧
      (retry 0 0 (fun j => (.error (.userError j) : Except JsError Nat)) =
        .error (.userError 0))) :=
  ⟨rfl, retry_rethrows_non_conflict_immediately 0 _ _ rfl⟩

/-! ## Lemmas about the sorted-array primitives -/

namespace sortedTupleValuePairs

variable {V : Type}

theorem get_set_self (l : List (KeyValuePair V)) (k : Tuple) (v : V) :
    get (set l k v) k = some v := by
  induction l with
  | nil => simp [set, get, compareTuple_refl]
  | cons p rest ih =>
    unfold set
    rcases hc : compareTuple k p.key with _ | _ | _
    · simp [get, compareTuple_refl]
    · simp [get, compareTuple_refl]
    · simp [get, hc, ih]

theorem mem_set {l : List (KeyValuePair V)} {k : Tuple} {v : V}
    {q : KeyValuePair V} (h : q ∈ set l k v) : q = ⟨k, v⟩ ∨ q ∈ l := by
  induction l with
  | nil => simpa [set] using h
  | cons p rest ih =>
    unfold set at h
    rcases hc : compareTuple k p.key with _ | _ | _ <;> rw [hc] at h <;>
      simp only [List.mem_cons] at h ⊢
    · tauto
    · tauto
    · rcases h with h | h
      · tauto
      · rcases ih h with h | h <;> tauto

theorem sorted_set {l : List (KeyValuePair V)} (k : Tuple) (v : V)
    (hs : SortedPairs l) : SortedPairs (set l k v) := by
  induction l with
  | nil => simp [set, SortedPairs]
  | cons p rest ih =>
    rw [SortedPairs, List.pairwise_cons] at hs
    obtain ⟨hp, ht⟩ := hs
    unfold set
    rcases hc : compareTuple k p.key with _ | _ | _
    · rw [SortedPairs, List.pairwise_cons]
      refine ⟨?_, ?_⟩
      · intro q hq
        rcases List.mem_cons.mp hq with rfl | hq
        · exact hc
        · exact compareTuple_trans hc (hp q hq)
      · rw [List.pairwise_cons]
        exact ⟨hp, ht⟩
    · have hk := compareTuple_eq_iff.mp hc
      rw [SortedPairs, List.pairwise_cons]
      exact ⟨fun q hq => hk ▸ hp q hq, ht⟩
    · rw [SortedPairs, List.pairwise_cons]
      refine ⟨?_, ih ht⟩
      intro q hq
      rcases mem_set hq with rfl | hq
      · exact compareTuple_gt_iff.mp hc
      · exact hp q hq

theorem remove_sublist (l : List (KeyValuePair V)) (k : Tuple) :
    (remove l k).Sublist l := by
  induction l with
  | nil => simp [remove]
  | cons p rest ih =>
    unfold remove
    by_cases hc : compareTuple k p.key = .eq
    · simp only [hc, if_true]
      exact List.sublist_cons_of_sublist p (List.Sublist.refl rest)
    · simp only [hc, if_false]
      exact List.Sublist.cons₂ p ih

theorem sorted_remove {l : List (KeyValuePair V)} (k : Tuple)
    (hs : SortedPairs l) : SortedPairs (remove l k) :=
  List.Pairwise.sublist (remove_sublist l k) hs

theorem mem_remove_key_ne {l : List (KeyValuePair V)} (hs : SortedPairs l)
    {k : Tuple} {q : KeyValuePair V} (h : q ∈ remove l k) :
    q ∈ l ∧ q.key ≠ k := by
  induction l with
  | nil => simp [remove] at h
  | cons p rest ih =>
    rw [SortedPairs, List.pairwise_cons] at hs
    obtain ⟨hp, ht⟩ := hs
    unfold remove at h
    by_cases hc : compareTuple k p.key = .eq
    · rw [if_pos hc] at h
      have hk := compareTuple_eq_iff.mp hc
      refine ⟨List.mem_cons_of_mem p h, ?_⟩
      intro he
      have := hp q h
      rw [he, hk] at this
      rw [compareTuple_refl] at this
      exact absurd this (by simp)
    · rw [if_neg hc] at h
      rcases List.mem_cons.mp h with rfl | h
      · refine ⟨List.mem_cons_self _ _, ?_⟩
        intro he
        rw [he, compareTuple_refl] at hc
        exact hc rfl
      · obtain ⟨h1, h2⟩ := ih ht h
        exact ⟨List.mem_cons_of_mem p h1, h2⟩

theorem get_eq_some_of_mem {l : List (KeyValuePair V)} (hs : SortedPairs l)
    {k : Tuple} {v : V} (h : (⟨k, v⟩ : KeyValuePair V) ∈ l) :
    get l k = some v := by
  induction l with
  | nil => simp at h
  | cons p rest ih =>
    rw [SortedPairs, List.pairwise_cons] at hs
    obtain ⟨hp, ht⟩ := hs
    unfold get
    rcases List.mem_cons.mp h with he | h
    · rw [← he]
      simp [compareTuple_refl]
    · by_cases hc : compareTuple k p.key = .eq
      · exfalso
        have hk := compareTuple_eq_iff.mp hc
        have := hp _ h
        rw [← hk, compareTuple_refl] at this
        exact absurd this (by simp)
      · rw [if_neg hc]
        exact ih ht h

theorem mem_of_get_eq_some {l : List (KeyValuePair V)} {k : Tuple} {v : V}
    (h : get l k = some v) : (⟨k, v⟩ : KeyValuePair V) ∈ l := by
  induction l with
  | nil => simp [get] at h
  | cons p rest ih =>
    unfold get at h
    by_cases hc : compareTuple k p.key = .eq
    · rw [if_pos hc] at h
      have hk := compareTuple_eq_iff.mp hc
      injection h with h
      rw [hk, ← h]
      exact List.mem_cons_self _ _
    · rw [if_neg hc] at h
      exact List.mem_cons_of_mem p (ih h)

theorem existsb_true_iff {l : List (KeyValuePair V)} {k : Tuple} :
    existsb l k = true ↔ ∃ v, (⟨k, v⟩ : KeyValuePair V) ∈ l := by
  unfold existsb
  rw [Option.isSome_iff_exists]
  constructor
  · rintro ⟨v, hv⟩
    exact ⟨v, mem_of_get_eq_some hv⟩
  · rintro ⟨v, hv⟩
    induction l with
    | nil => simp at hv
    | cons p rest ih =>
      unfold get
      by_cases hc : compareTuple k p.key = .eq
      · rw [if_pos hc]
        exact ⟨p.value, rfl⟩
      · rw [if_neg hc]
        rcases List.mem_cons.mp hv with he | hv2
        · exfalso
          apply hc
          rw [← he]
          exact compareTuple_refl k
        · exact ih hv2

theorem existsb_false_iff {l : List (KeyValuePair V)} {k : Tuple} :
    existsb l k = false ↔ ∀ v, (⟨k, v⟩ : KeyValuePair V) ∉ l := by
  rw [← Bool.not_eq_true, not_iff_comm.symm]
  push_neg
  rw [existsb_true_iff]

end sortedTupleValuePairs

namespace sortedTupleArray

theorem mem_set_iff {l : List Tuple} {k u : Tuple} :
    u ∈ set l k ↔ u = k ∨ u ∈ l := by
  induction l with
  | nil => simp [set]
  | cons w rest ih =>
    unfold set
    rcases hc : compareTuple k w with _ | _ | _
    · simp only [List.mem_cons]
    · have hk := compareTuple_eq_iff.mp hc
      subst hk
      simp only [List.mem_cons]
      tauto
    · simp only [List.mem_cons, ih]
      tauto

theorem sorted_set_tuples {l : List Tuple} (k : Tuple) (hs : SortedTuples l) :
    SortedTuples (set l k) := by
  induction l with
  | nil => simp [set, SortedTuples]
  | cons w rest ih =>
    rw [SortedTuples, List.pairwise_cons] at hs
    obtain ⟨hp, ht⟩ := hs
    unfold set
    rcases hc : compareTuple k w with _ | _ | _
    · rw [SortedTuples, List.pairwise_cons]
      refine ⟨?_, ?_⟩
      · intro u hu
        rcases List.mem_cons.mp hu with rfl | hu
        · exact hc
        · exact compareTuple_trans hc (hp u hu)
      · rw [List.pairwise_cons]
        exact ⟨hp, ht⟩
    · have hk := compareTuple_eq_iff.mp hc
      rw [SortedTuples, List.pairwise_cons]
      exact ⟨fun u hu => hk ▸ hp u hu, ht⟩
    · rw [SortedTuples, List.pairwise_cons]
      refine ⟨?_, ih ht⟩
      intro u hu
      rcases mem_set_iff.mp hu with rfl | hu
      · exact compareTuple_gt_iff.mp hc
      · exact hp u hu

theorem remove_sublist_tuples (l : List Tuple) (k : Tuple) :
    (remove l k).Sublist l := by
  induction l with
  | nil => simp [remove]
  | cons w rest ih =>
    unfold remove
    by_cases hc : compareTuple k w = .eq
    · simp only [hc, if_true]
      exact List.sublist_cons_of_sublist w (List.Sublist.refl rest)
    · simp only [hc, if_false]
      exact List.Sublist.cons₂ w ih

theorem sorted_remove_tuples {l : List Tuple} (k : Tuple) (hs : SortedTuples l) :
    SortedTuples (remove l k) :=
  List.Pairwise.sublist (remove_sublist_tuples l k) hs

theorem mem_remove_ne {l : List Tuple} (hs : SortedTuples l) {k u : Tuple}
    (h : u ∈ remove l k) : u ∈ l ∧ u ≠ k := by
  induction l with
  | nil => simp [remove] at h
  | cons w rest ih =>
    rw [SortedTuples, List.pairwise_cons] at hs
    obtain ⟨hp, ht⟩ := hs
    unfold remove at h
    by_cases hc : compareTuple k w = .eq
    · rw [if_pos hc] at h
      have hk := compareTuple_eq_iff.mp hc
      refine ⟨List.mem_cons_of_mem w h, ?_⟩
      intro he
      have := hp u h
      rw [he, hk, compareTuple_refl] at this
      exact absurd this (by simp)
    · rw [if_neg hc] at h
      rcases List.mem_cons.mp h with rfl | h
      · refine ⟨List.mem_cons_self _ _, ?_⟩
        intro he
        rw [he, compareTuple_refl] at hc
        exact hc rfl
      · obtain ⟨h1, h2⟩ := ih ht h
        exact ⟨List.mem_cons_of_mem w h1, h2⟩

theorem existsb_true_iff_tuples {l : List Tuple} {k : Tuple} :
    existsb l k = true ↔ k ∈ l := by
  induction l with
  | nil => simp [existsb]
  | cons w rest ih =>
    unfold existsb
    by_cases hc : compareTuple k w = .eq
    · have hk := compareTuple_eq_iff.mp hc
      subst hk
      simp [hc]
    · rw [if_neg hc, ih]
      simp only [List.mem_cons]
      constructor
      · exact Or.inr
      · rintro (rfl | h)
        · exact absurd (compareTuple_refl k) hc
        · exact h

theorem existsb_false_iff_tuples {l : List Tuple} {k : Tuple} :
    existsb l k = false ↔ k ∉ l := by
  rw [← Bool.not_eq_true, not_iff_not, existsb_true_iff_tuples]

end sortedTupleArray

/-! ## Claim C4 -/

/-- A single buffered-write call on a transaction. -/
inductive WriteOp (V : Type) where
  | setOp (t : Tuple) (v : V)
  | removeOp (t : Tuple)

/-- Apply one `set`/`remove` call; on a closed transaction the call throws
and the state is unchanged. -/
def applyWriteOp {V : Type} (tx : TupleTransaction V) :
    WriteOp V → TupleTransaction V
  | .setOp t v =>
    match tx.set t v with
    | .ok tx2 => tx2
    | .error _ => tx
  | .removeOp t =>
    match tx.remove t with
    | .ok tx2 => tx2
    | .error _ => tx

/-- Apply a finite sequence of `set`/`remove` calls. -/
def applyWriteOps {V : Type} (tx : TupleTransaction V)
    (ops : List (WriteOp V)) : TupleTransaction V :=
  ops.foldl applyWriteOp tx

/-- The buffered-write invariant: both buffers strictly sorted (hence
duplicate-free) and key-disjoint. -/
def BufferInv {V : Type} (tx : TupleTransaction V) : Prop :=
  SortedPairs tx.writes.set ∧ SortedTuples tx.writes.remove ∧
    ∀ u v, (⟨u, v⟩ : KeyValuePair V) ∈ tx.writes.set → u ∉ tx.writes.remove

theorem BufferInv.preserved_op {V : Type} {tx : TupleTransaction V}
    (h : BufferInv tx) (op : WriteOp V) : BufferInv (applyWriteOp tx op) := by
  obtain ⟨hset, hrem, hdis⟩ := h
  cases op with
  | setOp t v =>
    unfold applyWriteOp TupleTransaction.set
    cases hca : tx.checkActive with
    | error e => exact ⟨hset, hrem, hdis⟩
    | ok u =>
      refine ⟨sortedTupleValuePairs.sorted_set _ _ hset,
        sortedTupleArray.sorted_remove_tuples _ hrem, ?_⟩
      intro w v2 hw hwr
      rcases sortedTupleValuePairs.mem_set hw with he | hw2
      · have hk : w = prependPrefixToTuple tx.subspacePrefix t := by
          injection he with h1 h2
        rw [hk] at hwr
        exact (sortedTupleArray.mem_remove_ne hrem hwr).2 rfl
      · have := hdis w v2 hw2
        exact this ((sortedTupleArray.remove_sublist_tuples _ _).mem hwr)
  | removeOp t =>
    unfold applyWriteOp TupleTransaction.remove
    cases hca : tx.checkActive with
    | error e => exact ⟨hset, hrem, hdis⟩
    | ok u =>
      refine ⟨sortedTupleValuePairs.sorted_remove _ hset,
        sortedTupleArray.sorted_set_tuples _ hrem, ?_⟩
      intro w v2 hw hwr
      obtain ⟨hw2, hkne⟩ := sortedTupleValuePairs.mem_remove_key_ne hset hw
      rcases sortedTupleArray.mem_set_iff.mp hwr with he | hwr2
      · exact hkne he
      · exact hdis w v2 hw2 hwr2

theorem BufferInv.preserved_ops {V : Type} {tx : TupleTransaction V}
    (h : BufferInv tx) (ops : List (WriteOp V)) :
    BufferInv (applyWriteOps tx ops) := by
  induction ops generalizing tx with
  | nil => exact h
  | cons op rest ih => exact ih (h.preserved_op op)

/-- C4: starting from a fresh transaction, after every finite sequence of
`set` and `remove` calls the buffered writes stay disjoint — no tuple
appears both as a key of `writes.set` and in `writes.remove` — because
`set(T, v)` first deletes T from the remove buffer and `remove(T)` first
deletes T from the set buffer. -/
theorem transaction_buffers_stay_disjoint {V : Type} (sp : Tuple)
    (txId : String) (ops : List (WriteOp V)) :
    ∀ u v, (⟨u, v⟩ : KeyValuePair V) ∈
        (applyWriteOps { subspacePrefix := sp, id := txId } ops).writes.set →
      u ∉ (applyWriteOps { subspacePrefix := sp, id := txId } ops).writes.remove := by
  have hfresh : BufferInv ({ subspacePrefix := sp, id := txId } :
      TupleTransaction V) := by
    refine ⟨?_, ?_, ?_⟩
    · simp [SortedPairs]
    · simp [SortedTuples]
    · intro u v h
      simp at h
  exact (hfresh.preserved_ops ops).2.2

theorem transaction_buffers_stay_disjoint_witness :
    ((⟨[.num 2], (5 : Int)⟩ : KeyValuePair Int) ∈
      (applyWriteOps { subspacePrefix := [], id := "t1" }
        [.setOp [.num 1] 0, .removeOp [.num 1], .setOp [.num 2] 5]).writes.set) ∧
    ([.num 2] ∉
      (applyWriteOps ({ subspacePrefix := [], id := "t1" } :
          TupleTransaction Int)
        [.setOp [.num 1] 0, .removeOp [.num 1], .setOp [.num 2] 5]).writes.remove) :=
  ⟨by
    simp [applyWriteOps, applyWriteOp, TupleTransaction.set,
      TupleTransaction.remove, TupleTransaction.checkActive,
      prependPrefixToTuple, sortedTupleValuePairs.set,
      sortedTupleValuePairs.remove, sortedTupleArray.set,
      sortedTupleArray.remove, compareTuple, compareInt, Ordering.then],
   transaction_buffers_stay_disjoint [] "t1"
     [.setOp [.num 1] 0, .removeOp [.num 1], .setOp [.num 2] 5]
     [.num 2] 5
     (by
       simp [applyWriteOps, applyWriteOp, TupleTransaction.set,
         TupleTransaction.remove, TupleTransaction.checkActive,
         prependPrefixToTuple, sortedTupleValuePairs.set,
         sortedTupleValuePairs.remove, sortedTupleArray.set,
         sortedTupleArray.remove, compareTuple, compareInt, Ordering.then])⟩

/-! ## Claim C5 -/

/-- C5: a `set(t, v)` issued through a client or transaction carrying
subspace prefix P buffers the key `P ++ t`, and committing applies it to
the engine so storage holds value v at key `P ++ t`; `subspace()` returns
a new client with the extended prefix and leaves the parent client's
`subspacePrefix` untouched.  Concretely, the spec scenario
`db.subspace(["game","g1"]).transact().set(["total"], 3).commit()` makes
storage hold `{key: ["game","g1","total"], value: 3}`. -/
theorem subspace_set_commit_prepends_prefix {V : Type}
    (parent : TupleDatabaseClient) (p t : Tuple) (v : V) (txId : String)
    (storage : List (KeyValuePair V)) :
    ((parent.subspace p).subspacePrefix = parent.subspacePrefix ++ p) ∧
    (TupleTransaction.set
        (TupleDatabaseClient.transact (parent.subspace p) txId) t v =
      .ok { subspacePrefix := parent.subspacePrefix ++ p, id := txId,
            writes := { set := [⟨(parent.subspacePrefix ++ p) ++ t, v⟩],
                        remove := [] } }) ∧
    ((TupleTransaction.commit (engineCommitOnStorage storage)
        ({ subspacePrefix := parent.subspacePrefix ++ p, id := txId,
           writes := { set := [⟨(parent.subspacePrefix ++ p) ++ t, v⟩],
                       remove := [] } } : TupleTransaction V)).2 =
      .ok (sortedTupleValuePairs.set storage
        ((parent.subspacePrefix ++ p) ++ t) v)) ∧
    (sortedTupleValuePairs.get
        (sortedTupleValuePairs.set storage ((parent.subspacePrefix ++ p) ++ t) v)
        ((parent.subspacePrefix ++ p) ++ t) = some v) ∧
    ((match TupleTransaction.set
        (TupleDatabaseClient.transact
          (TupleDatabaseClient.subspace ⟨[]⟩ [.str "game", .str "g1"]) "t1" :
          TupleTransaction Int) [.str "total"] 3 with
      | .error _ => none
      | .ok tx2 =>
        match (TupleTransaction.commit (engineCommitOnStorage []) tx2).2 with
        | .error _ => none
        | .ok st => sortedTupleValuePairs.get st
            [.str "game", .str "g1", .str "total"]) = some 3) := by
  refine ⟨rfl, ?_, ?_, ?_, ?_⟩
  · rfl
  · rfl
  · exact sortedTupleValuePairs.get_set_self storage _ v
  simp [TupleDatabaseClient.subspace, TupleDatabaseClient.transact,
    TupleTransaction.set, TupleTransaction.checkActive,
    TupleTransaction.commit, engineCommitOnStorage, applyWrites,
    prependPrefixToTuple, sortedTupleValuePairs.set,
    sortedTupleValuePairs.remove, sortedTupleValuePairs.get,
    sortedTupleArray.remove, compareTuple, compareStr, compareCharList,
    compareChar, compareNatO, Ordering.then]

/-! ## Claim C7 -/

/-- C7: for an active transaction and tuple t (with the buffers sorted, as
every buffer reachable through `set`/`remove` is), `get(t)` returns the
buffered value when the prefixed tuple is a key of the set buffer, returns
`undefined` (`none`) when it lies in the remove buffer, and otherwise
scans the engine at the single-point range `{gte: fullTuple,
lte: fullTuple}` — returning `none` on an empty result, the pair's value
on exactly one result, and throwing the get-expected-single error on more
than one. -/
theorem transaction_get_characterization {V : Type}
    (storage : List (KeyValuePair V)) (tx : TupleTransaction V) (t : Tuple)
    (hact : tx.isActive = true) (hs : SortedPairs tx.writes.set) :
    (∀ v, (⟨prependPrefixToTuple tx.subspacePrefix t, v⟩ : KeyValuePair V) ∈
        tx.writes.set →
      TupleTransaction.get storage tx t = .ok (some v)) ∧
    ((∀ v, (⟨prependPrefixToTuple tx.subspacePrefix t, v⟩ : KeyValuePair V) ∉
        tx.writes.set) →
      prependPrefixToTuple tx.subspacePrefix t ∈ tx.writes.remove →
      TupleTransaction.get storage tx t = .ok none) ∧
    ((∀ v, (⟨prependPrefixToTuple tx.subspacePrefix t, v⟩ : KeyValuePair V) ∉
        tx.writes.set) →
      prependPrefixToTuple tx.subspacePrefix t ∉ tx.writes.remove →
      TupleTransaction.get storage tx t =
        (match dbScan storage
            { gte := some (prependPrefixToTuple tx.subspacePrefix t),
              lte := some (prependPrefixToTuple tx.subspacePrefix t) } with
          | [] => .ok none
          | [p] => .ok (some p.value)
          | _ :: _ :: _ =>
            .error (.genericError "Get expects only one value."))) := by
  have hca := TupleTransaction.checkActive_active hact
  refine ⟨?_, ?_, ?_⟩
  · intro v hv
    have hex : sortedTupleValuePairs.existsb tx.writes.set
        (prependPrefixToTuple tx.subspacePrefix t) = true :=
      sortedTupleValuePairs.existsb_true_iff.mpr ⟨v, hv⟩
    have hget := sortedTupleValuePairs.get_eq_some_of_mem hs hv
    simp [TupleTransaction.get, hca, hex, hget]
  · intro h1 h2
    have hex1 : sortedTupleValuePairs.existsb tx.writes.set
        (prependPrefixToTuple tx.subspacePrefix t) = false :=
      sortedTupleValuePairs.existsb_false_iff.mpr h1
    have hex2 : sortedTupleArray.existsb tx.writes.remove
        (prependPrefixToTuple tx.subspacePrefix t) = true :=
      sortedTupleArray.existsb_true_iff_tuples.mpr h2
    simp [TupleTransaction.get, hca, hex1, hex2]
  · intro h1 h2
    have hex1 : sortedTupleValuePairs.existsb tx.writes.set
        (prependPrefixToTuple tx.subspacePrefix t) = false :=
      sortedTupleValuePairs.existsb_false_iff.mpr h1
    have hex2 : sortedTupleArray.existsb tx.writes.remove
        (prependPrefixToTuple tx.subspacePrefix t) = false :=
      sortedTupleArray.existsb_false_iff_tuples.mpr h2
    simp [TupleTransaction.get, hca, hex1, hex2]

theorem transaction_get_characterization_witness :
    TupleTransaction.get ([] : List (KeyValuePair Int))
      { subspacePrefix := [], id := "t0",
        writes := { set := [⟨[.num 1], 5⟩], remove := [] } } [.num 1] =
      .ok (some 5) :=
  (transaction_get_characterization []
    ({ subspacePrefix := [], id := "t0",
       writes := { set := [⟨[.num 1], 5⟩], remove := [] } } :
      TupleTransaction Int) [.num 1] rfl
    (by simp [SortedPairs])).1 5 (List.mem_singleton.mpr rfl)

/-! ## Claim C8 -/

theorem TupleTransaction.isActive_false_of_checkActive_error {V : Type}
    {tx : TupleTransaction V} {e : JsError}
    (h : tx.checkActive = .error e) : tx.isActive = false := by
  unfold TupleTransaction.checkActive at h
  unfold TupleTransaction.isActive
  by_cases hc : tx.committed <;> by_cases hn : tx.canceled <;> simp_all

/-- C8: in an attempt of `transactionalQuery` over a database client, when
the user function throws while leaving the transaction active, the wrapper
cancels that transaction — the `canceled` flag is set and the
transaction's entries are released from the concurrency log — and the
same error is then re-raised; moreover after any failed attempt the
returned transaction is never left active. -/
theorem txAttempt_cancels_before_rethrow {V O : Type} (sp : Tuple)
    (txId : String)
    (fn : TupleTransaction V → List String →
      TupleTransaction V × List String × Except JsError O)
    (ec : Writes V → String → List String → List String × Except JsError Unit)
    (log : List String) :
    (∀ tx1 log1 e,
      fn { subspacePrefix := sp, id := txId } log = (tx1, log1, .error e) →
      tx1.isActive = true →
      txAttempt sp txId fn ec log =
        ({ tx1 with canceled := true },
          concurrencyLogCancel tx1.id log1, .error e)) ∧
    (∀ e, (txAttempt sp txId fn ec log).2.2 = .error e →
      (txAttempt sp txId fn ec log).1.isActive = false) := by
  constructor
  · intro tx1 log1 e hfn hact
    simp only [txAttempt, hfn, TupleTransaction.checkActive_active hact]
  · intro e he
    clear he
    simp only [txAttempt]
    rcases hfn : fn { subspacePrefix := sp, id := txId } log with ⟨tx1, log1, r⟩
    cases r with
    | error e1 =>
      cases hca : TupleTransaction.checkActive tx1 with
      | error e2 =>
        simp only [hca]
        simpa using TupleTransaction.isActive_false_of_checkActive_error hca
      | ok u =>
        simp only [hca]
        simp [TupleTransaction.isActive]
    | ok v =>
      cases hca : TupleTransaction.checkActive tx1 with
      | error e2 =>
        simp only [hca]
        simpa using TupleTransaction.isActive_false_of_checkActive_error hca
      | ok u =>
        simp only [hca]
        simp [TupleTransaction.isActive]

theorem txAttempt_cancels_before_rethrow_witness :
    txAttempt [] "t1"
      (fun (tx : TupleTransaction Int) log =>
        (tx, log, (.error (.userError 7) : Except JsError Int)))
      (fun w i l => (l, .ok ())) ["t1", "t2"] =
      ({ subspacePrefix := [], id := "t1", canceled := true },
        ["t2"], .error (.userError 7)) :=
  (txAttempt_cancels_before_rethrow [] "t1"
      (fun (tx : TupleTransaction Int) log =>
        (tx, log, (.error (.userError 7) : Except JsError Int)))
      (fun w i l => (l, .ok ())) ["t1", "t2"]).1
    { subspacePrefix := [], id := "t1" } ["t1", "t2"] (.userError 7) rfl rfl

/-! ## Claim C9 -/

theorem AsyncTupleTransaction.checkActive_toSync {V : Type}
    (tx : AsyncTupleTransaction V) :
    TupleTransaction.checkActive tx.toSync =
      AsyncTupleTransaction.checkActive tx := rfl

theorem AsyncTupleTransaction.set_toSync {V : Type}
    (tx : AsyncTupleTransaction V) (t : Tuple) (v : V) :
    (AsyncTupleTransaction.set tx t v).map AsyncTupleTransaction.toSync =
      TupleTransaction.set tx.toSync t v := by
  unfold AsyncTupleTransaction.set TupleTransaction.set
  rw [AsyncTupleTransaction.checkActive_toSync]
  cases hc : AsyncTupleTransaction.checkActive tx with
  | error e => simp only [hc, Except.map]
  | ok u =>
    simp only [hc, Except.map]
    rfl

theorem AsyncTupleTransaction.remove_toSync {V : Type}
    (tx : AsyncTupleTransaction V) (t : Tuple) :
    (AsyncTupleTransaction.remove tx t).map AsyncTupleTransaction.toSync =
      TupleTransaction.remove tx.toSync t := by
  unfold AsyncTupleTransaction.remove TupleTransaction.remove
  rw [AsyncTupleTransaction.checkActive_toSync]
  cases hc : AsyncTupleTransaction.checkActive tx with
  | error e => simp only [hc, Except.map]
  | ok u =>
    simp only [hc, Except.map]
    rfl

theorem AsyncTupleTransaction.removeList_toSync {V : Type}
    (l : List Tuple) (tx : AsyncTupleTransaction V) :
    (l.foldlM (fun acc k => AsyncTupleTransaction.remove acc k) tx).map
        AsyncTupleTransaction.toSync =
      l.foldlM (fun acc k => TupleTransaction.remove acc k) tx.toSync := by
  induction l generalizing tx with
  | nil => rfl
  | cons k rest ih =>
    rw [List.foldlM_cons, List.foldlM_cons,
      ← AsyncTupleTransaction.remove_toSync]
    cases hr : AsyncTupleTransaction.remove tx k with
    | error e => rfl
    | ok tx2 =>
      show (rest.foldlM (fun acc k => AsyncTupleTransaction.remove acc k)
          tx2).map AsyncTupleTransaction.toSync =
        rest.foldlM (fun acc k => TupleTransaction.remove acc k) tx2.toSync
      exact ih tx2

theorem AsyncTupleTransaction.setList_toSync {V : Type}
    (l : List (KeyValuePair V)) (tx : AsyncTupleTransaction V) :
    (l.foldlM (fun acc q => AsyncTupleTransaction.set acc q.key q.value)
        tx).map AsyncTupleTransaction.toSync =
      l.foldlM (fun acc q => TupleTransaction.set acc q.key q.value)
        tx.toSync := by
  induction l generalizing tx with
  | nil => rfl
  | cons q rest ih =>
    rw [List.foldlM_cons, List.foldlM_cons,
      ← AsyncTupleTransaction.set_toSync]
    cases hr : AsyncTupleTransaction.set tx q.key q.value with
    | error e => rfl
    | ok tx2 =>
      show (rest.foldlM (fun acc q => AsyncTupleTransaction.set acc q.key
          q.value) tx2).map AsyncTupleTransaction.toSync =
        rest.foldlM (fun acc q => TupleTransaction.set acc q.key q.value)
          tx2.toSync
      exact ih tx2

theorem AsyncTupleTransaction.write_toSync {V : Type}
    (tx : AsyncTupleTransaction V) (w : Writes V) :
    (AsyncTupleTransaction.write tx w).map AsyncTupleTransaction.toSync =
      TupleTransaction.write tx.toSync w := by
  unfold AsyncTupleTransaction.write TupleTransaction.write
  rw [AsyncTupleTransaction.checkActive_toSync]
  cases hc : AsyncTupleTransaction.checkActive tx with
  | error e => simp only [hc, Except.map]
  | ok u =>
    simp only [hc]
    rw [← AsyncTupleTransaction.removeList_toSync]
    cases hr : w.remove.foldlM
        (fun acc k => AsyncTupleTransaction.remove acc k) tx with
    | error e => simp only [Except.map]
    | ok tx1 =>
      simp only [Except.map]
      exact AsyncTupleTransaction.setList_toSync w.set tx1

theorem AsyncTupleTransaction.commit_toSync {V σ : Type}
    (ec : Writes V → String → Except JsError σ)
    (tx : AsyncTupleTransaction V) :
    ((AsyncTupleTransaction.commit ec tx).1.toSync,
      (AsyncTupleTransaction.commit ec tx).2) =
      TupleTransaction.commit ec tx.toSync := by
  unfold AsyncTupleTransaction.commit TupleTransaction.commit
  rw [AsyncTupleTransaction.checkActive_toSync]
  cases hc : AsyncTupleTransaction.checkActive tx with
  | error e => simp only [hc]
  | ok u =>
    simp only [hc]
    rfl

theorem AsyncTupleTransaction.cancel_toSync {V σ : Type}
    (ecl : String → Except JsError σ) (tx : AsyncTupleTransaction V) :
    ((AsyncTupleTransaction.cancel ecl tx).1.toSync,
      (AsyncTupleTransaction.cancel ecl tx).2) =
      TupleTransaction.cancel ecl tx.toSync := by
  unfold AsyncTupleTransaction.cancel TupleTransaction.cancel
  rw [AsyncTupleTransaction.checkActive_toSync]
  cases hc : AsyncTupleTransaction.checkActive tx with
  | error e => simp only [hc]
  | ok u =>
    simp only [hc]
    rfl

/-- C9: every operation of the asynchronous client/transaction family
computes the same result and the same state change as the corresponding
synchronous operation over the same engine storage, under the
field-for-field correspondence `toSync`; the two families differ only in
promise wrapping, which the embedding erases. -/
theorem sync_async_families_equivalent {V σ : Type}
    (storage : List (KeyValuePair V)) (tx : AsyncTupleTransaction V)
    (args : ScanArgs) (t : Tuple) (v : V) (w : Writes V)
    (ec : Writes V → String → Except JsError σ)
    (ecl : String → Except JsError σ)
    (c : AsyncTupleDatabaseClient) (p : Tuple) (txId : String) :
    (AsyncTupleTransaction.scan storage tx args =
      TupleTransaction.scan storage tx.toSync args) ∧
    (AsyncTupleTransaction.get storage tx t =
      TupleTransaction.get storage tx.toSync t) ∧
    (AsyncTupleTransaction.existsb storage tx t =
      TupleTransaction.existsb storage tx.toSync t) ∧
    ((AsyncTupleTransaction.set tx t v).map AsyncTupleTransaction.toSync =
      TupleTransaction.set tx.toSync t v) ∧
    ((AsyncTupleTransaction.remove tx t).map AsyncTupleTransaction.toSync =
      TupleTransaction.remove tx.toSync t) ∧
    ((AsyncTupleTransaction.write tx w).map AsyncTupleTransaction.toSync =
      TupleTransaction.write tx.toSync w) ∧
    (((AsyncTupleTransaction.commit ec tx).1.toSync,
        (AsyncTupleTransaction.commit ec tx).2) =
      TupleTransaction.commit ec tx.toSync) ∧
    (((AsyncTupleTransaction.cancel ecl tx).1.toSync,
        (AsyncTupleTransaction.cancel ecl tx).2) =
      TupleTransaction.cancel ecl tx.toSync) ∧
    (AsyncTupleDatabaseClient.scan storage c args =
      TupleDatabaseClient.scan storage c.toSync args) ∧
    (AsyncTupleDatabaseClient.get storage c t =
      TupleDatabaseClient.get storage c.toSync t) ∧
    (AsyncTupleDatabaseClient.existsb storage c t =
      TupleDatabaseClient.existsb storage c.toSync t) ∧
    (AsyncTupleDatabaseClient.commit storage c w =
      TupleDatabaseClient.commit storage c.toSync w) ∧
    ((AsyncTupleDatabaseClient.subspace c p).toSync =
      TupleDatabaseClient.subspace c.toSync p) ∧
    ((AsyncTupleDatabaseClient.transact c txId :
        AsyncTupleTransaction V).toSync =
      TupleDatabaseClient.transact c.toSync txId) :=
  ⟨rfl, rfl, rfl, AsyncTupleTransaction.set_toSync tx t v,
    AsyncTupleTransaction.remove_toSync tx t,
    AsyncTupleTransaction.write_toSync tx w,
    AsyncTupleTransaction.commit_toSync ec tx,
    AsyncTupleTransaction.cancel_toSync ecl tx,
    rfl, rfl, rfl, rfl, rfl, rfl⟩

/-! ## Claim C1 -/

/-- Counterexample to the `limit` part of the scan-overlay claim: with two
storage pairs in range, a buffered set of a third key, and `limit := 2`,
the transaction scan returns all three pairs — the overlay upserts into
the already-capped storage slice and the cap is never reapplied. -/
theorem transaction_scan_limit_not_reapplied :
    TupleTransaction.scan [⟨[.num 1], 0⟩, ⟨[.num 2], 0⟩]
      ({ subspacePrefix := [], id := "t1",
         writes := { set := [⟨[.num 3], (0 : Int)⟩], remove := [] } } :
        TupleTransaction Int) { limit := some 2 } =
      .ok [⟨[.num 1], 0⟩, ⟨[.num 2], 0⟩, ⟨[.num 3], 0⟩] := by
  simp [TupleTransaction.scan, TupleTransaction.checkActive,
    normalizeSubspaceScanArgs, dbScan, sortedTupleValuePairs.scan,
    sortedTupleValuePairs.set, sortedTupleValuePairs.remove,
    sortedTupleArray.scan, inBounds, applyLimit,
    removePrefixFromTupleValuePairs, removePrefixFromTuple,
    compareTuple, compareInt, Ordering.then]

/-! ### Overlay commutation lemmas for the amended scan claim -/

namespace sortedTupleValuePairs

variable {V : Type}

theorem filter_key_cons_pos {q : Tuple → Bool} {p : KeyValuePair V}
    (l : List (KeyValuePair V)) (h : q p.key = true) :
    List.filter (fun x => q x.key) (p :: l) =
      p :: List.filter (fun x => q x.key) l := by
  simp [List.filter_cons, h]

theorem filter_key_cons_neg {q : Tuple → Bool} {p : KeyValuePair V}
    (l : List (KeyValuePair V)) (h : ¬ q p.key = true) :
    List.filter (fun x => q x.key) (p :: l) =
      List.filter (fun x => q x.key) l := by
  simp [List.filter_cons, h]

theorem set_eq_cons_of_lt_all {l : List (KeyValuePair V)} {k : Tuple} (v : V)
    (h : ∀ p ∈ l, compareTuple k p.key = .lt) :
    set l k v = ⟨k, v⟩ :: l := by
  cases l with
  | nil => rfl
  | cons p rest =>
    unfold set
    rw [h p (List.mem_cons_self _ _)]

theorem filter_set_of_true {q : Tuple → Bool} {l : List (KeyValuePair V)}
    {k : Tuple} (v : V) (hq : q k = true) (hs : SortedPairs l) :
    (set l k v).filter (fun x => q x.key) =
      set (l.filter fun x => q x.key) k v := by
  induction l with
  | nil => simp [set, hq]
  | cons p rest ih =>
    rw [SortedPairs, List.pairwise_cons] at hs
    obtain ⟨hp, ht⟩ := hs
    cases hc : compareTuple k p.key with
    | lt =>
      simp only [set, hc]
      by_cases hqp : q p.key = true
      · rw [filter_key_cons_pos _ hq, filter_key_cons_pos _ hqp]
        simp only [set, hc]
      · rw [filter_key_cons_pos _ hq, filter_key_cons_neg _ hqp]
        rw [set_eq_cons_of_lt_all v]
        intro x hx
        have hx2 := List.mem_filter.mp hx
        exact compareTuple_trans hc (hp x hx2.1)
    | eq =>
      have hk := compareTuple_eq_iff.mp hc
      have hqp : q p.key = true := by rw [← hk]; exact hq
      simp only [set, hc]
      rw [filter_key_cons_pos _ hq, filter_key_cons_pos _ hqp]
      simp only [set, hc]
    | gt =>
      simp only [set, hc]
      by_cases hqp : q p.key = true
      · rw [filter_key_cons_pos _ hqp, filter_key_cons_pos _ hqp]
        simp only [set, hc]
        rw [ih ht]
      · rw [filter_key_cons_neg _ hqp, filter_key_cons_neg _ hqp]
        exact ih ht

theorem filter_set_of_false {q : Tuple → Bool} {l : List (KeyValuePair V)}
    {k : Tuple} (v : V) (hq : q k = false) :
    (set l k v).filter (fun x => q x.key) = l.filter fun x => q x.key := by
  have hq2 : ¬ q k = true := by simp [hq]
  induction l with
  | nil => simp [set, hq]
  | cons p rest ih =>
    cases hc : compareTuple k p.key with
    | lt =>
      simp only [set, hc]
      rw [filter_key_cons_neg _ hq2]
    | eq =>
      have hk := compareTuple_eq_iff.mp hc
      have hqp : ¬ q p.key = true := by rw [← hk]; exact hq2
      simp only [set, hc]
      rw [filter_key_cons_neg _ hq2, filter_key_cons_neg _ hqp]
    | gt =>
      simp only [set, hc]
      by_cases hqp : q p.key = true
      · rw [filter_key_cons_pos _ hqp, filter_key_cons_pos _ hqp, ih]
      · rw [filter_key_cons_neg _ hqp, filter_key_cons_neg _ hqp]
        exact ih

theorem filter_remove_of_true {q : Tuple → Bool} {l : List (KeyValuePair V)}
    {k : Tuple} (hq : q k = true) :
    (remove l k).filter (fun x => q x.key) =
      remove (l.filter fun x => q x.key) k := by
  induction l with
  | nil => simp [remove]
  | cons p rest ih =>
    by_cases hc : compareTuple k p.key = .eq
    · have hk := compareTuple_eq_iff.mp hc
      have hqp : q p.key = true := by rw [← hk]; exact hq
      simp only [remove, if_pos hc]
      rw [filter_key_cons_pos _ hqp]
      simp only [remove, if_pos hc]
    · simp only [remove, if_neg hc]
      by_cases hqp : q p.key = true
      · rw [filter_key_cons_pos _ hqp, filter_key_cons_pos _ hqp]
        simp only [remove, if_neg hc]
        rw [ih]
      · rw [filter_key_cons_neg _ hqp, filter_key_cons_neg _ hqp]
        exact ih

theorem filter_remove_of_false {q : Tuple → Bool} {l : List (KeyValuePair V)}
    {k : Tuple} (hq : q k = false) :
    (remove l k).filter (fun x => q x.key) = l.filter fun x => q x.key := by
  induction l with
  | nil => simp [remove]
  | cons p rest ih =>
    by_cases hc : compareTuple k p.key = .eq
    · have hk := compareTuple_eq_iff.mp hc
      have hqp : ¬ q p.key = true := by rw [← hk]; simp [hq]
      simp only [remove, if_pos hc]
      rw [filter_key_cons_neg _ hqp]
    · simp only [remove, if_neg hc]
      by_cases hqp : q p.key = true
      · rw [filter_key_cons_pos _ hqp, filter_key_cons_pos _ hqp, ih]
      · rw [filter_key_cons_neg _ hqp, filter_key_cons_neg _ hqp]
        exact ih

theorem remove_set_comm {l : List (KeyValuePair V)} {k a : Tuple} (v : V)
    (hs : SortedPairs l) (hne : compareTuple k a ≠ .eq) :
    remove (set l a v) k = set (remove l k) a v := by
  induction l with
  | nil =>
    simp only [set, remove, if_neg hne]
  | cons p rest ih =>
    rw [SortedPairs, List.pairwise_cons] at hs
    obtain ⟨hp, ht⟩ := hs
    cases hc : compareTuple a p.key with
    | lt =>
      simp only [set, hc]
      simp only [remove, if_neg hne]
      by_cases hkp : compareTuple k p.key = .eq
      · rw [if_pos hkp]
        rw [set_eq_cons_of_lt_all v]
        intro x hx
        exact compareTuple_trans hc (hp x hx)
      · rw [if_neg hkp]
        simp only [set, hc]
    | eq =>
      have hak := compareTuple_eq_iff.mp hc
      have hkp : compareTuple k p.key ≠ .eq := by rw [← hak]; exact hne
      simp only [set, hc]
      simp only [remove, if_neg hne, if_neg hkp]
      simp only [set, hc]
    | gt =>
      simp only [set, hc]
      by_cases hkp : compareTuple k p.key = .eq
      · simp only [remove, if_pos hkp]
      · simp only [remove, if_neg hkp]
        rw [ih ht]
        simp only [set, hc]

theorem remove_setFold_comm {S : List (KeyValuePair V)}
    {l : List (KeyValuePair V)} {k : Tuple} (hs : SortedPairs l)
    (hne : ∀ q ∈ S, compareTuple k q.key ≠ .eq) :
    remove (S.foldl (fun r q => set r q.key q.value) l) k =
      S.foldl (fun r q => set r q.key q.value) (remove l k) := by
  induction S generalizing l with
  | nil => rfl
  | cons a S2 ih =>
    rw [List.foldl_cons, List.foldl_cons]
    rw [ih (sorted_set _ _ hs) (fun q hq => hne q (List.mem_cons_of_mem a hq)),
      remove_set_comm _ hs (hne a (List.mem_cons_self _ _))]

theorem removeFold_setFold_comm {R : List Tuple}
    {S : List (KeyValuePair V)} {l : List (KeyValuePair V)}
    (hs : SortedPairs l)
    (hne : ∀ k ∈ R, ∀ q ∈ S, compareTuple k q.key ≠ .eq) :
    R.foldl (fun r t => remove r t) (S.foldl (fun r q => set r q.key q.value) l) =
      S.foldl (fun r q => set r q.key q.value)
        (R.foldl (fun r t => remove r t) l) := by
  induction R generalizing l with
  | nil => rfl
  | cons t R2 ih =>
    rw [List.foldl_cons, List.foldl_cons,
      remove_setFold_comm hs (hne t (List.mem_cons_self _ _)),
      ih (sorted_remove _ hs) (fun k hk => hne k (List.mem_cons_of_mem t hk))]

theorem filter_setFold {q : Tuple → Bool} {S l : List (KeyValuePair V)}
    (hs : SortedPairs l) :
    (S.filter fun a => q a.key).foldl (fun r p => set r p.key p.value)
        (l.filter fun x => q x.key) =
      (S.foldl (fun r p => set r p.key p.value) l).filter
        fun x => q x.key := by
  induction S generalizing l with
  | nil => rfl
  | cons a S2 ih =>
    rw [List.foldl_cons]
    by_cases hqa : q a.key = true
    · rw [filter_key_cons_pos _ hqa, List.foldl_cons,
        ← filter_set_of_true a.value hqa hs]
      exact ih (sorted_set _ _ hs)
    · rw [filter_key_cons_neg _ hqa,
        ← filter_set_of_false (l := l) (k := a.key) a.value
          (Bool.not_eq_true _ ▸ hqa)]
      exact ih (sorted_set _ _ hs)

theorem filter_removeFold {q : Tuple → Bool} {R : List Tuple}
    {l : List (KeyValuePair V)} :
    (R.filter q).foldl (fun r t => remove r t) (l.filter fun x => q x.key) =
      (R.foldl (fun r t => remove r t) l).filter fun x => q x.key := by
  induction R generalizing l with
  | nil => rfl
  | cons t R2 ih =>
    rw [List.foldl_cons]
    by_cases hqt : q t = true
    · rw [List.filter_cons_of_pos hqt, List.foldl_cons,
        ← filter_remove_of_true hqt]
      exact ih
    · rw [List.filter_cons_of_neg hqt,
        ← filter_remove_of_false (l := l) (k := t) (Bool.not_eq_true _ ▸ hqt)]
      exact ih

end sortedTupleValuePairs

theorem removePrefix_append (P s : Tuple) :
    removePrefixFromTuple P (P ++ s) = s := by
  unfold removePrefixFromTuple
  induction P with
  | nil => rfl
  | cons x pp ih => simpa using ih

theorem compareTuple_removePrefix {P a b : Tuple}
    (ha : ∃ s, a = P ++ s) (hb : ∃ s, b = P ++ s) :
    compareTuple (removePrefixFromTuple P a) (removePrefixFromTuple P b) =
      compareTuple a b := by
  obtain ⟨s, rfl⟩ := ha
  obtain ⟨t, rfl⟩ := hb
  rw [removePrefix_append, removePrefix_append, compareTuple_append_left]

namespace sortedTupleValuePairs

theorem set_strip_comm {P : Tuple} {l : List (KeyValuePair V)} {k : Tuple}
    (v : V) (hl : ∀ p ∈ l, ∃ s, p.key = P ++ s) (hk : ∃ s, k = P ++ s) :
    set (removePrefixFromTupleValuePairs P l) (removePrefixFromTuple P k) v =
      removePrefixFromTupleValuePairs P (set l k v) := by
  induction l with
  | nil => simp [set, removePrefixFromTupleValuePairs]
  | cons p rest ih =>
    have hcmp : compareTuple (removePrefixFromTuple P k)
        (removePrefixFromTuple P p.key) = compareTuple k p.key :=
      compareTuple_removePrefix hk (hl p (List.mem_cons_self _ _))
    simp only [removePrefixFromTupleValuePairs, List.map_cons]
    cases hc : compareTuple k p.key with
    | lt =>
      simp only [set, hcmp, hc]
      simp only [removePrefixFromTupleValuePairs, List.map_cons]
    | eq =>
      simp only [set, hcmp, hc]
      simp only [removePrefixFromTupleValuePairs, List.map_cons]
    | gt =>
      simp only [set, hcmp, hc]
      simp only [removePrefixFromTupleValuePairs, List.map_cons]
      rw [show List.map (fun q => (⟨removePrefixFromTuple P q.key, q.value⟩ :
          KeyValuePair V)) rest = removePrefixFromTupleValuePairs P rest
        from rfl]
      rw [ih (fun x hx => hl x (List.mem_cons_of_mem p hx))]
      rfl

theorem remove_strip_comm {P : Tuple} {l : List (KeyValuePair V)} {k : Tuple}
    (hl : ∀ p ∈ l, ∃ s, p.key = P ++ s) (hk : ∃ s, k = P ++ s) :
    remove (removePrefixFromTupleValuePairs P l) (removePrefixFromTuple P k) =
      removePrefixFromTupleValuePairs P (remove l k) := by
  induction l with
  | nil => simp [remove, removePrefixFromTupleValuePairs]
  | cons p rest ih =>
    have hcmp : compareTuple (removePrefixFromTuple P k)
        (removePrefixFromTuple P p.key) = compareTuple k p.key :=
      compareTuple_removePrefix hk (hl p (List.mem_cons_self _ _))
    simp only [removePrefixFromTupleValuePairs, List.map_cons]
    by_cases hc : compareTuple k p.key = .eq
    · simp only [remove, hcmp, if_pos hc]
    · simp only [remove, hcmp, if_neg hc]
      simp only [removePrefixFromTupleValuePairs, List.map_cons] at ih ⊢
      rw [ih (fun x hx => hl x (List.mem_cons_of_mem p hx))]

theorem setFold_keys_prefix {P : Tuple} {S l : List (KeyValuePair V)}
    (hl : ∀ p ∈ l, ∃ s, p.key = P ++ s)
    (hS : ∀ p ∈ S, ∃ s, p.key = P ++ s) :
    ∀ p ∈ S.foldl (fun r a => set r a.key a.value) l, ∃ s, p.key = P ++ s := by
  induction S generalizing l with
  | nil => exact hl
  | cons a S2 ih =>
    rw [List.foldl_cons]
    refine ih ?_ (fun x hx => hS x (List.mem_cons_of_mem a hx))
    intro x hx
    rcases mem_set hx with rfl | hx2
    · exact hS a (List.mem_cons_self _ _)
    · exact hl x hx2

theorem setFold_strip_comm {P : Tuple} {S l : List (KeyValuePair V)}
    (hl : ∀ p ∈ l, ∃ s, p.key = P ++ s)
    (hS : ∀ p ∈ S, ∃ s, p.key = P ++ s) :
    S.foldl (fun r a => set r (removePrefixFromTuple P a.key) a.value)
        (removePrefixFromTupleValuePairs P l) =
      removePrefixFromTupleValuePairs P
        (S.foldl (fun r a => set r a.key a.value) l) := by
  induction S generalizing l with
  | nil => rfl
  | cons a S2 ih =>
    rw [List.foldl_cons, List.foldl_cons,
      set_strip_comm a.value hl (hS a (List.mem_cons_self _ _))]
    refine ih ?_ (fun x hx => hS x (List.mem_cons_of_mem a hx))
    intro x hx
    rcases mem_set hx with rfl | hx2
    · exact hS a (List.mem_cons_self _ _)
    · exact hl x hx2

theorem removeFold_strip_comm {P : Tuple} {R : List Tuple}
    {l : List (KeyValuePair V)} (hl : ∀ p ∈ l, ∃ s, p.key = P ++ s)
    (hR : ∀ k ∈ R, ∃ s, k = P ++ s) :
    R.foldl (fun r t => remove r (removePrefixFromTuple P t))
        (removePrefixFromTupleValuePairs P l) =
      removePrefixFromTupleValuePairs P
        (R.foldl (fun r t => remove r t) l) := by
  induction R generalizing l with
  | nil => rfl
  | cons t R2 ih =>
    rw [List.foldl_cons, List.foldl_cons,
      remove_strip_comm hl (hR t (List.mem_cons_self _ _))]
    refine ih ?_ (fun x hx => hR x (List.mem_cons_of_mem t hx))
    intro x hx
    exact hl x ((remove_sublist l t).mem hx)

theorem strip_sorted {P : Tuple} {l : List (KeyValuePair V)}
    (hs : SortedPairs l) (hl : ∀ p ∈ l, ∃ s, p.key = P ++ s) :
    SortedPairs (removePrefixFromTupleValuePairs P l) := by
  unfold removePrefixFromTupleValuePairs SortedPairs
  rw [List.pairwise_map]
  refine List.Pairwise.imp_of_mem ?_ hs
  intro a b ha hb hab
  rw [compareTuple_removePrefix (hl a ha) (hl b hb)]
  exact hab

end sortedTupleValuePairs

theorem between_append_prefix (pfx : Tuple) : ∀ (a c k : Tuple),
    compareTuple (pfx ++ a) k ≠ .gt → compareTuple k (pfx ++ c) ≠ .gt →
    ∃ s, k = pfx ++ s := by
  induction pfx with
  | nil =>
    intro a c k h1 h2
    exact ⟨k, rfl⟩
  | cons x pp ih =>
    intro a c k hlow hup
    cases k with
    | nil => exact absurd rfl hlow
    | cons y ks =>
      have hl2 : compareTuple ((x :: pp) ++ a) (y :: ks) =
          (compareValue x y).then (compareTuple (pp ++ a) ks) := rfl
      have hu2 : compareTuple (y :: ks) ((x :: pp) ++ c) =
          (compareValue y x).then (compareTuple ks (pp ++ c)) := rfl
      cases hxy : compareValue x y with
      | lt =>
        exfalso
        apply hup
        rw [hu2, compareValue_swap, hxy]
        rfl
      | gt =>
        exfalso
        apply hlow
        rw [hl2, hxy]
        rfl
      | eq =>
        have hxy2 : x = y := compareValue_eq_iff.mp hxy
        subst hxy2
        have hlow2 : compareTuple (pp ++ a) ks ≠ .gt := by
          intro h
          apply hlow
          rw [hl2, hxy, h]
          rfl
        have hup2 : compareTuple ks (pp ++ c) ≠ .gt := by
          intro h
          apply hup
          rw [hu2, compareValue_refl, h]
          rfl
        obtain ⟨s, rfl⟩ := ih a c ks hlow2 hup2
        exact ⟨s, rfl⟩

theorem inBounds_normalized_prefix (P : Tuple) (args : ScanArgs) (k : Tuple)
    (h : inBounds (normalizeSubspaceScanArgs P args) k = true) :
    ∃ s, k = P ++ s := by
  by_cases hP : P = []
  · subst hP
    exact ⟨k, rfl⟩
  · have hpe : (P ++ args.keyPrefix.getD []).isEmpty = false := by
      cases P with
      | nil => exact absurd rfl hP
      | cons x pp => rfl
    unfold inBounds normalizeSubspaceScanArgs at h
    simp only [Bool.and_eq_true] at h
    obtain ⟨⟨⟨h1, h2⟩, h3⟩, h4⟩ := h
    have hlow : ∃ xa, compareTuple ((P ++ args.keyPrefix.getD []) ++ xa) k ≠
        .gt := by
      rcases hg : args.gt with _ | b
      · rcases hge : args.gte with _ | b2
        · refine ⟨[Value.vmin], ?_⟩
          simp only [hg, hge, hpe, Bool.false_eq_true, if_false] at h2
          simpa using h2
        · refine ⟨b2, ?_⟩
          simp only [hg, hge] at h2
          simpa using h2
      · refine ⟨b, ?_⟩
        simp only [hg, Option.map_some'] at h1
        simp only [decide_eq_true_eq] at h1
        rw [h1]
        simp
    have hup : ∃ xc, compareTuple k ((P ++ args.keyPrefix.getD []) ++ xc) ≠
        .gt := by
      rcases hl : args.lt with _ | b
      · rcases hle : args.lte with _ | b2
        · refine ⟨[Value.vmax], ?_⟩
          simp only [hl, hle, hpe, Bool.false_eq_true, if_false] at h4
          simpa using h4
        · refine ⟨b2, ?_⟩
          simp only [hl, hle] at h4
          simpa using h4
      · refine ⟨b, ?_⟩
        simp only [hl, Option.map_some'] at h3
        simp only [decide_eq_true_eq] at h3
        rw [h3]
        simp
    obtain ⟨xa, hxa⟩ := hlow
    obtain ⟨xc, hxc⟩ := hup
    obtain ⟨s, hks⟩ := between_append_prefix _ xa xc k hxa hxc
    exact ⟨args.keyPrefix.getD [] ++ s, by rw [hks, List.append_assoc]⟩

namespace sortedTupleValuePairs

theorem setFold_sorted {S l : List (KeyValuePair V)} (hs : SortedPairs l) :
    SortedPairs (S.foldl (fun r a => set r a.key a.value) l) := by
  induction S generalizing l with
  | nil => exact hs
  | cons a S2 ih => exact ih (sorted_set _ _ hs)

theorem removeFold_sorted {R : List Tuple} {l : List (KeyValuePair V)}
    (hs : SortedPairs l) :
    SortedPairs (R.foldl (fun r t => remove r t) l) := by
  induction R generalizing l with
  | nil => exact hs
  | cons t R2 ih => exact ih (sorted_remove _ hs)

end sortedTupleValuePairs

/-- C1 (amended): for an active transaction whose buffered writes are
key-disjoint and prefixed by the transaction's subspace prefix (both
invariants of buffers built through `set`/`remove`), over sorted storage,
and with no `limit` requested, `scan` returns exactly the
prefix-stripped engine scan of the storage with the whole write buffer
applied — every buffered set in range upserted, every buffered remove in
range deleted — and the result is sorted by the tuple comparator.  The
`limit` clause of the original claim is false: see the counterexample,
the cap is applied to the storage slice before the overlay and never
reapplied. -/
theorem transaction_scan_overlays_buffered_writes {V : Type}
    (storage : List (KeyValuePair V)) (tx : TupleTransaction V)
    (args : ScanArgs)
    (hact : tx.isActive = true)
    (hlim : args.limit = none)
    (hss : SortedPairs storage)
    (hdisj : ∀ k ∈ tx.writes.remove, ∀ p ∈ tx.writes.set, k ≠ p.key)
    (hPs : ∀ p ∈ tx.writes.set, ∃ s, p.key = tx.subspacePrefix ++ s)
    (hPr : ∀ k ∈ tx.writes.remove, ∃ s, k = tx.subspacePrefix ++ s) :
    TupleTransaction.scan storage tx args =
      .ok (removePrefixFromTupleValuePairs tx.subspacePrefix
        (dbScan (applyWrites storage tx.writes)
          (normalizeSubspaceScanArgs tx.subspacePrefix args))) ∧
    SortedPairs (removePrefixFromTupleValuePairs tx.subspacePrefix
      (dbScan (applyWrites storage tx.writes)
        (normalizeSubspaceScanArgs tx.subspacePrefix args))) := by
  have hlimn : (normalizeSubspaceScanArgs tx.subspacePrefix args).limit =
      none := by
    simp [normalizeSubspaceScanArgs, hlim]
  have hA : ∀ p ∈ storage.filter (fun x =>
      inBounds (normalizeSubspaceScanArgs tx.subspacePrefix args) x.key),
      ∃ s, p.key = tx.subspacePrefix ++ s := by
    intro p hp
    exact inBounds_normalized_prefix _ args p.key (List.mem_filter.mp hp).2
  have hSf : ∀ p ∈ tx.writes.set.filter (fun x =>
      inBounds (normalizeSubspaceScanArgs tx.subspacePrefix args) x.key),
      ∃ s, p.key = tx.subspacePrefix ++ s := by
    intro p hp
    exact hPs p (List.mem_filter.mp hp).1
  have hRf : ∀ k ∈ tx.writes.remove.filter
      (inBounds (normalizeSubspaceScanArgs tx.subspacePrefix args)),
      ∃ s, k = tx.subspacePrefix ++ s := by
    intro k hk
    exact hPr k (List.mem_filter.mp hk).1
  have hAs : SortedPairs (storage.filter (fun x =>
      inBounds (normalizeSubspaceScanArgs tx.subspacePrefix args) x.key)) :=
    List.Pairwise.sublist (List.filter_sublist storage) hss
  have hMid := sortedTupleValuePairs.setFold_keys_prefix hA hSf
  have hne : ∀ k ∈ tx.writes.remove.filter
      (inBounds (normalizeSubspaceScanArgs tx.subspacePrefix args)),
      ∀ p ∈ tx.writes.set.filter (fun x =>
        inBounds (normalizeSubspaceScanArgs tx.subspacePrefix args) x.key),
      compareTuple k p.key ≠ .eq := by
    intro k hk p hp he
    exact hdisj k (List.mem_filter.mp hk).1 p (List.mem_filter.mp hp).1
      (compareTuple_eq_iff.mp he)
  have hAW : SortedPairs ((applyWrites storage tx.writes).filter (fun x =>
      inBounds (normalizeSubspaceScanArgs tx.subspacePrefix args) x.key)) := by
    refine List.Pairwise.sublist (List.filter_sublist _) ?_
    unfold applyWrites
    exact sortedTupleValuePairs.setFold_sorted
      (sortedTupleValuePairs.removeFold_sorted hss)
  have hAWkeys : ∀ p ∈ (applyWrites storage tx.writes).filter (fun x =>
      inBounds (normalizeSubspaceScanArgs tx.subspacePrefix args) x.key),
      ∃ s, p.key = tx.subspacePrefix ++ s := by
    intro p hp
    exact inBounds_normalized_prefix _ args p.key (List.mem_filter.mp hp).2
  constructor
  · unfold TupleTransaction.scan
    rw [TupleTransaction.checkActive_active hact]
    simp only [dbScan, sortedTupleValuePairs.scan, sortedTupleArray.scan,
      hlimn, applyLimit]
    rw [sortedTupleValuePairs.setFold_strip_comm hA hSf,
      sortedTupleValuePairs.removeFold_strip_comm hMid hRf,
      sortedTupleValuePairs.removeFold_setFold_comm hAs hne,
      sortedTupleValuePairs.filter_removeFold,
      sortedTupleValuePairs.filter_setFold
        (sortedTupleValuePairs.removeFold_sorted hss)]
    rfl
  · simp only [dbScan, sortedTupleValuePairs.scan, hlimn, applyLimit]
    exact sortedTupleValuePairs.strip_sorted hAW hAWkeys

theorem transaction_scan_overlays_buffered_writes_witness :
    TupleTransaction.scan [⟨[.num 1], (0 : Int)⟩]
      ({ subspacePrefix := [], id := "t1" } : TupleTransaction Int) {} =
      .ok (removePrefixFromTupleValuePairs []
        (dbScan (applyWrites [⟨[.num 1], (0 : Int)⟩]
            ({ subspacePrefix := [], id := "t1" } :
              TupleTransaction Int).writes)
          (normalizeSubspaceScanArgs [] {}))) ∧
    SortedPairs (removePrefixFromTupleValuePairs []
      (dbScan (applyWrites [⟨[.num 1], (0 : Int)⟩]
          ({ subspacePrefix := [], id := "t1" } :
            TupleTransaction Int).writes)
        (normalizeSubspaceScanArgs [] {}))) :=
  transaction_scan_overlays_buffered_writes [⟨[.num 1], (0 : Int)⟩]
    ({ subspacePrefix := [], id := "t1" } : TupleTransaction Int) {}
    rfl rfl (by simp [SortedPairs]) (by simp) (by simp) (by simp)

end TupleDb
